import Mathlib

/-!
Verification of the dark-channel-prior dehazing pipeline (`dehaze/dcp.py`).

The numeric samples of the images are embedded as elements of an arbitrary
linear ordered field `K` (instantiated at `ℚ` for executable witnesses and at
`ℝ` for the full pipeline, whose depth stage uses the real logarithm).  Arrays
are embedded as total functions from indices to `K` together with explicit
dimensions; all stages are translated clause by clause from the source.
-/

namespace Dehaze


variable {K : Type} [LinearOrderedField K]

open Matrix

/-! ## Definitions -/

/-- Clamp an integer index into the valid index range of an axis of length
`n`; this is the `mode = nearest` boundary handling of the scipy filters. -/
def clampIdx (n : ℕ) (i : ℤ) : ℕ := (min (max i 0) ((n : ℤ) - 1)).toNat

/-- Offsets covered by a centered window of size `s` along one axis, as the
scipy correlation-style filters place them: from `-(s / 2)` to
`s - s / 2 - 1` inclusive. -/
def offs (s : ℕ) : Finset ℤ :=
  Finset.Icc (-((s / 2 : ℕ) : ℤ)) ((s : ℤ) - ((s / 2 : ℕ) : ℤ) - 1)

/-- Sliding-window minimum filter with nearest boundary handling
(`scipy.ndimage.minimum_filter`, `mode = 'nearest'`).  The center offset is
inserted so that the window set is provably nonempty; on the domain of the
scipy filter (both sizes at least 1) the center already belongs to the
window, so the insertion is the identity. -/
def minFilt (H W : ℕ) (v : ℕ → ℕ → K) (ph pw : ℕ) (y x : ℕ) : K :=
  (insert ((0 : ℤ), (0 : ℤ)) (offs ph ×ˢ offs pw)).inf' (Finset.insert_nonempty _ _)
    (fun d => v (clampIdx H ((y : ℤ) + d.1)) (clampIdx W ((x : ℤ) + d.2)))

/-- Minimum across the three color channels at one pixel
(`np.min(img, axis=-1)`). -/
def minCh3 (v : ℕ → ℕ → Fin 3 → K) (y x : ℕ) : K := min (v y x 0) (min (v y x 1) (v y x 2))

/-- Dark channel of an `H×W×3` image: channel minimum followed by the
window minimum filter (the 3-channel branch of `get_dark_channel`). -/
def darkChannel3 (H W : ℕ) (I : ℕ → ℕ → Fin 3 → K) (ph pw : ℕ) : ℕ → ℕ → K :=
  minFilt H W (minCh3 I) ph pw

/-- Row-major flattening of a 2-D array of width `w` (`ndarray.flatten`). -/
def flat2 (w : ℕ) (v : ℕ → ℕ → K) : ℕ → K := fun p => v (p / w) (p % w)

/-- The relation comparing flat indices by their dark-channel value; sorting
`List.range N` by it models `np.argsort` (ascending; tie order is the
underlying sort's business and is semantically irrelevant here). -/
def valLE (v : ℕ → K) (a b : ℕ) : Prop := v a ≤ v b

instance (v : ℕ → K) : DecidableRel (valLE v) :=
  fun a b => inferInstanceAs (Decidable (v a ≤ v b))

instance (v : ℕ → K) : IsTotal ℕ (valLE v) := ⟨fun a b => le_total (v a) (v b)⟩

instance (v : ℕ → K) : IsTrans ℕ (valLE v) := ⟨fun _ _ _ => le_trans⟩

/-- `np.argsort` of the length-`N` flat array `v`, ascending. -/
def argsort (N : ℕ) (v : ℕ → K) : List ℕ := List.insertionSort (valLE v) (List.range N)

/-- The positions of the `np` largest values: `argsort(dc_flatten)[-numpix:]`. -/
def topIdx (N : ℕ) (v : ℕ → K) (np : ℕ) : List ℕ := (argsort N v).drop (N - np)

/-- `numpix = max(int(dc.shape[0] * dc.shape[1] * top_ratio), 1)`.  Python
`int()` truncates toward zero; on nonnegative products that is the floor,
and on negative products both the truncation and `Int.toNat ∘ Int.floor`
are absorbed by the `max` with 1. -/
def numpix [FloorRing K] (h w : ℕ) (tRat : K) : ℕ :=
  max (Int.toNat ⌊(h : K) * (w : K) * tRat⌋) 1

/-- `get_mask`: boolean mask of the `numpix` largest dark-channel pixels,
reshaped to the 2-D shape of the dark channel. -/
def get_mask [FloorRing K] (h w : ℕ) (dc : ℕ → ℕ → K) (tRat : K) : ℕ → ℕ → Bool :=
  fun y x => decide ((y * w + x) ∈ topIdx (h * w) (flat2 w dc) (numpix h w tRat))

/-- Number of `true` entries of the selection mask over the `h×w` grid. -/
def maskCount [FloorRing K] (h w : ℕ) (dc : ℕ → ℕ → K) (tRat : K) : ℕ :=
  ((Finset.range h ×ˢ Finset.range w).filter
    (fun yx => get_mask h w dc tRat yx.1 yx.2 = true)).card

/-- `get_atmos_light`: the image multiplied by the (float-valued) top-pixel
mask, summed over both spatial axes and divided by `numpix`. -/
def get_atmos_light [FloorRing K] (h w : ℕ) (im : ℕ → ℕ → Fin 3 → K)
    (dc : ℕ → ℕ → K) (tRat : K) : Fin 3 → K := fun c =>
  (∑ p ∈ Finset.range (h * w),
      (if p ∈ topIdx (h * w) (flat2 w dc) (numpix h w tRat) then (1 : K) else 0)
        * im (p / w) (p % w) c)
    / (numpix h w tRat : K)

/-- The comparison target stated by the claim: the mean color of the image
over exactly the pixels marked true in the selection mask (sum over the
masked pixels divided by the number of masked pixels). -/
def maskMeanSpec [FloorRing K] (h w : ℕ) (im : ℕ → ℕ → Fin 3 → K)
    (dc : ℕ → ℕ → K) (tRat : K) : Fin 3 → K := fun c =>
  (∑ p ∈ (Finset.range (h * w)).filter
      (fun p => get_mask h w dc tRat (p / w) (p % w) = true), im (p / w) (p % w) c)
    / (((Finset.range (h * w)).filter
      (fun p => get_mask h w dc tRat (p / w) (p % w) = true)).card : K)

/-- `np.clip(x, lo, hi)`. -/
def np_clip (x lo hi : K) : K := min (max x lo) hi

/-- Scene recovery (`get_J`): clamp the transmission to the range from `t0`
to 1, invert the scattering model `(I - A) / t + A`, and optionally clip the
result to the unit interval. -/
def get_J (I : ℕ → ℕ → Fin 3 → K) (A : Fin 3 → K) (t : ℕ → ℕ → K) (t0 : K)
    (clip : Bool) : ℕ → ℕ → Fin 3 → K :=
  fun y x c =>
    let res := (I y x c - A c) / np_clip (t y x) t0 1 + A c
    if clip then np_clip res 0 1 else res

/-- The shape-relevant fragment of a numpy array as received by
`get_dark_channel`: rank 2, or rank 3 with an explicit trailing channel
count. -/
inductive NpArr (K : Type) where
  | arr2 (H W : ℕ) (v : ℕ → ℕ → K)
  | arr3 (H W C : ℕ) (v : ℕ → ℕ → ℕ → K)

/-- The two failure modes of `get_dark_channel`: the explicit
`NotImplementedError` for an unsupported rank, and the `RuntimeError` that
`scipy.ndimage.minimum_filter` documents when the length of the size
sequence (always 2 here, from the patch-size pair) differs from the rank
of its input. -/
inductive DcErr where
  | notImplemented
  | filterSeqRankMismatch

/-- `get_dark_channel`: a 3-channel input is reduced by the channel
minimum and min-filtered at rank 2; a rank-2 input is min-filtered
directly; a rank-3 input with a single trailing channel passes the rank
test unreduced (`img.copy()`), so the subsequent `minimum_filter` call
receives a rank-3 array with a length-2 size sequence and raises; any
other shape raises `NotImplementedError`. -/
def get_dark_channel (a : NpArr K) (ps : ℕ × ℕ) : Except DcErr (NpArr K) :=
  match a with
  | .arr3 H W 3 v =>
      .ok (.arr2 H W (minFilt H W
        (fun y x => min (v y x 0) (min (v y x 1) (v y x 2))) ps.1 ps.2))
  | .arr2 H W v => .ok (.arr2 H W (minFilt H W v ps.1 ps.2))
  | .arr3 _ _ 1 _ => .error .filterSeqRankMismatch
  | .arr3 _ _ _ _ => .error .notImplemented

/-- Executable matrix inverse over a field: `det⁻¹ • adjugate`.  On
invertible input this is what `np.linalg.inv` returns, and it agrees with
Mathlib's matrix inverse there. -/
def matInv {m : Type} [Fintype m] [DecidableEq m] (M : Matrix m m K) : Matrix m m K :=
  (M.det)⁻¹ • M.adjugate

/-- `neb_size = (win_size * 2 + 1) ** 2`. -/
def nebSize (r : ℕ) : ℕ := (2 * r + 1) ^ 2

/-- Image row of the `a`-th pixel (row-major within the window) of the
window centered at row `i`; valid for centers with `r ≤ i`. -/
def wRow (r i a : ℕ) : ℕ := i - r + a / (2 * r + 1)

/-- Image column of the `a`-th window pixel. -/
def wCol (r j a : ℕ) : ℕ := j - r + a % (2 * r + 1)

/-- Flat image index of the `a`-th window pixel (entry of `win_inds`,
taken from `indsM = arange(h*w).reshape(h, w)`). -/
def wInd (w r i j a : ℕ) : ℕ := wRow r i a * w + wCol r j a

/-- The window contents `winI` of the window centered at `(i, j)`, as rows
indexed by the window pixel number. -/
def winV (I : ℕ → ℕ → Fin 3 → K) (r i j a : ℕ) : Fin 3 → K :=
  I (wRow r i a) (wCol r j a)

/-- The window color mean `win_mu`. -/
def winMu (I : ℕ → ℕ → Fin 3 → K) (r i j : ℕ) : Fin 3 → K := fun c =>
  (∑ a ∈ Finset.range (nebSize r), winV I r i j a c) / (nebSize r : K)

/-- The regularized window covariance
`winI.T @ winI / neb_size - win_mu @ win_mu.T + eps / neb_size * eye(3)`,
the argument of `np.linalg.inv` in the source. -/
def winCov (I : ℕ → ℕ → Fin 3 → K) (eps : K) (r i j : ℕ) : Matrix (Fin 3) (Fin 3) K :=
  Matrix.of fun c d =>
    (∑ a ∈ Finset.range (nebSize r), winV I r i j a c * winV I r i j a d)
        / (nebSize r : K)
      - winMu I r i j c * winMu I r i j d
      + (if c = d then eps / (nebSize r : K) else 0)

/-- `win_var`, the inverse of the regularized covariance. -/
def winVar (I : ℕ → ℕ → Fin 3 → K) (eps : K) (r i j : ℕ) : Matrix (Fin 3) (Fin 3) K :=
  matInv (winCov I eps r i j)

/-- The centered window rows `winI - tile(win_mu.T, (neb_size, 1))`. -/
def winX (I : ℕ → ℕ → Fin 3 → K) (r i j a : ℕ) (c : Fin 3) : K :=
  winV I r i j a c - winMu I r i j c

/-- The per-window affinity block
`tvals = (1 + (winI @ win_var) @ winI.T) / neb_size` (with `winI` already
centered). -/
def tvals (I : ℕ → ℕ → Fin 3 → K) (eps : K) (r i j a b : ℕ) : K :=
  (1 + ∑ c : Fin 3, ∑ d : Fin 3,
      winX I r i j a c * winVar I eps r i j c d * winX I r i j b d)
    / (nebSize r : K)

/-- The window centers visited by the assembly loops
(`range(win_size, w - win_size)` × `range(win_size, h - win_size)`, with
`consts = None`, the only way the repository calls the construction). -/
def centers (h w r : ℕ) : Finset (ℕ × ℕ) :=
  Finset.Ico r (h - r) ×ˢ Finset.Ico r (w - r)

/-- The accumulated affinity matrix: each window writes the flattened
block `tvals` with row indices `tile(win_inds)` and column indices
`repeat(win_inds)` (so entry `tvals[a][b]` lands at row `win_inds[b]`,
column `win_inds[a]`), and the sparse COO assembly sums every matching
triple. -/
def affinity (h w : ℕ) (I : ℕ → ℕ → Fin 3 → K) (eps : K) (r p q : ℕ) : K :=
  ∑ ij ∈ centers h w r, ∑ a ∈ Finset.range (nebSize r), ∑ b ∈ Finset.range (nebSize r),
    if wInd w r ij.1 ij.2 b = p ∧ wInd w r ij.1 ij.2 a = q
    then tvals I eps r ij.1 ij.2 a b else 0

/-- The row sums `sumA` of the accumulated affinity matrix. -/
def rowSumA (h w : ℕ) (I : ℕ → ℕ → Fin 3 → K) (eps : K) (r p : ℕ) : K :=
  ∑ q ∈ Finset.range (h * w), affinity h w I eps r p q

/-- The returned matting Laplacian `diags(sumA, 0) - A`, as an entrywise
function on flat pixel indices. -/
def get_laplace_matting_matrix (h w : ℕ) (I : ℕ → ℕ → Fin 3 → K) (eps : K)
    (r p q : ℕ) : K :=
  (if p = q then rowSumA h w I eps r p else 0) - affinity h w I eps r p q

/-- Two flat pixel indices co-occur in some assembled
`(2*win_size+1)²`-pixel window. -/
def sharesWindow (h w r p q : ℕ) : Prop :=
  ∃ ij ∈ centers h w r,
    (∃ a ∈ Finset.range (nebSize r), wInd w r ij.1 ij.2 a = p) ∧
    (∃ b ∈ Finset.range (nebSize r), wInd w r ij.1 ij.2 b = q)

/-- Flatten a 2-D map into the vector over flat pixel indices
(`p.flatten()`). -/
def flatVec (h w : ℕ) (p : ℕ → ℕ → K) : Fin (h * w) → K := fun k => flat2 w p k.val

/-- `t.reshape(p.shape)`: reshape a flat solution back to 2-D, row-major;
positions outside the grid are irrelevant junk set to 0. -/
def reshape2 (h w : ℕ) (t : Fin (h * w) → K) : ℕ → ℕ → K := fun y x =>
  if hyx : y * w + x < h * w then t ⟨y * w + x, hyx⟩ else 0

/-- The matting Laplacian as a matrix over the flat pixel indices. -/
def lapMat (h w : ℕ) (I : ℕ → ℕ → Fin 3 → K) (eps : K) (r : ℕ) :
    Matrix (Fin (h * w)) (Fin (h * w)) K :=
  Matrix.of fun p q => get_laplace_matting_matrix h w I eps r p.val q.val

/-- The system matrix `L + lam * diags([1] * n)`. -/
def sysMat (h w : ℕ) (I : ℕ → ℕ → Fin 3 → K) (eps lam : K) (r : ℕ) :
    Matrix (Fin (h * w)) (Fin (h * w)) K :=
  lapMat h w I eps r + lam • 1

/-- Exact-arithmetic model of `scipy.sparse.linalg.cg` on the symmetric
positive-definite systems it receives here: run to convergence, conjugate
gradient returns the exact solution of the system, and the flag `info = 0`
reports success.  The solver itself is an external collaborator; per the
specification it is a black box satisfying this contract. -/
def cg {n : ℕ} (M : Matrix (Fin n) (Fin n) K) (b : Fin n → K) :
    (Fin n → K) × ℤ :=
  ((matInv M).mulVec b, 0)

/-- Exact-arithmetic model of `scipy.sparse.linalg.spsolve` (direct
sparse solve). -/
def spsolve {n : ℕ} (M : Matrix (Fin n) (Fin n) K) (b : Fin n → K) : Fin n → K :=
  (matInv M).mulVec b

/-- What `soft_matting` does with the pair returned by the solver: it
destructures `t, info` and returns `t.reshape(p.shape)`; the convergence
flag `info` is never inspected and no warning is emitted. -/
def soft_matting_post (h w : ℕ) (res : (Fin (h * w) → K) × ℤ) : ℕ → ℕ → K :=
  reshape2 h w res.1

/-- `soft_matting`: build the Laplacian from the image (forwarding `eps`
and `win_size`), solve `(L + lam I) t = lam p.flatten()` by conjugate
gradient and reshape the iterate. -/
def soft_matting (h w : ℕ) (I : ℕ → ℕ → Fin 3 → K) (p : ℕ → ℕ → K)
    (lam eps : K) (r : ℕ) : ℕ → ℕ → K :=
  soft_matting_post h w
    (cg (sysMat h w I eps lam r) (fun k => lam * flatVec h w p k))

/-- `get_t`: direct sparse solve of `(L + lam I) t = lam tilde_t.flatten()`
from a caller-supplied Laplacian. -/
def get_t (h w : ℕ) (L : Matrix (Fin (h * w)) (Fin (h * w)) K)
    (tilde_t : ℕ → ℕ → K) (lam : K) : ℕ → ℕ → K :=
  reshape2 h w (spsolve (L + lam • 1) (fun k => lam * flatVec h w tilde_t k))

/-- `get_tilde_t`: broadcast `A` over the image, divide channelwise, and
return `1 - omega * dark_channel(im / A)`; the patch size is forwarded to
the dark-channel computation. -/
def get_tilde_t (h w : ℕ) (im : ℕ → ℕ → Fin 3 → K) (A : Fin 3 → K) (om : K)
    (ph pw : ℕ) : ℕ → ℕ → K := fun y x =>
  1 - om * darkChannel3 h w (fun y x c => im y x c / A c) ph pw y x

/-- `_rgb2gray` with the fixed luma weights 0.2989 / 0.5870 / 0.1140. -/
def rgb2gray (v : ℕ → ℕ → Fin 3 → K) : ℕ → ℕ → K := fun y x =>
  (2989 / 10000 : K) * v y x 0 + (5870 / 10000 : K) * v y x 1
    + (1140 / 10000 : K) * v y x 2

/-- Offsets of `scipy.ndimage.convolve` with a size-`s` kernel along one
axis (the kernel is flipped relative to correlation). -/
def offsConv (s : ℕ) : Finset ℤ :=
  Finset.Icc (-((s : ℤ) - ((s / 2 : ℕ) : ℤ) - 1)) ((s / 2 : ℕ) : ℤ)

/-- Convolution with the normalized box kernel `ones(ks) / (kh * kw)`,
`mode = 'nearest'`. -/
def boxAvg (H W : ℕ) (v : ℕ → ℕ → K) (kh kw : ℕ) (y x : ℕ) : K :=
  (∑ d ∈ offsConv kh ×ˢ offsConv kw,
      v (clampIdx H ((y : ℤ) + d.1)) (clampIdx W ((x : ℤ) + d.2)))
    / ((kh * kw : ℕ) : K)

/-- `guided_filter` for a 3-channel guide image: reduce the guide to
grayscale, compute box-filtered statistics, the local linear coefficients
`a` and `b`, box-average them, and apply the averaged model. -/
def guided_filter (h w : ℕ) (I : ℕ → ℕ → Fin 3 → K) (p : ℕ → ℕ → K)
    (ks : ℕ × ℕ) (eps : K) : ℕ → ℕ → K := fun y x =>
  let g := rgb2gray I
  let mean_I := boxAvg h w g ks.1 ks.2
  let mean_p := boxAvg h w p ks.1 ks.2
  let corr_Ip := boxAvg h w (fun y x => g y x * p y x) ks.1 ks.2
  let corr_I := boxAvg h w (fun y x => g y x * g y x) ks.1 ks.2
  let a := fun y x => (corr_Ip y x - mean_I y x * mean_p y x)
    / ((corr_I y x - mean_I y x * mean_I y x) + eps)
  let b := fun y x => mean_p y x - a y x * mean_I y x
  boxAvg h w a ks.1 ks.2 y x * g y x + boxAvg h w b ks.1 ks.2 y x

/-- Modelled from the spec: the external resampling primitive
(`skimage.transform.resize`) is out of scope and treated as a library
call; it is modelled as coordinate subsampling, a valid resampling.  No
claim depends on its exact interpolation. -/
def resizeModel (h w h2 w2 : ℕ) (v : ℕ → ℕ → K) : ℕ → ℕ → K := fun y x =>
  v (y * h / max h2 1) (x * w / max w2 1)

/-- `fast_guided_filter`: the guided filter computed at 1/s resolution
with the box size rescaled through the radius, the averaged coefficients
upsampled and applied against the full-resolution grayscale guide. -/
def fast_guided_filter (h w : ℕ) (I : ℕ → ℕ → Fin 3 → K) (p : ℕ → ℕ → K)
    (ks : ℕ × ℕ) (eps : K) (s : ℕ) : ℕ → ℕ → K := fun y x =>
  let g0 := rgb2gray I
  let h2 := h / s
  let w2 := w / s
  let g := resizeModel h w h2 w2 g0
  let p2 := resizeModel h w h2 w2 p
  let kh := 2 * ((ks.1 - 1) / 2) / s + 1
  let kw := 2 * ((ks.2 - 1) / 2) / s + 1
  let mean_I := boxAvg h2 w2 g kh kw
  let mean_p := boxAvg h2 w2 p2 kh kw
  let corr_Ip := boxAvg h2 w2 (fun y x => g y x * p2 y x) kh kw
  let corr_I := boxAvg h2 w2 (fun y x => g y x * g y x) kh kw
  let a := fun y x => (corr_Ip y x - mean_I y x * mean_p y x)
    / ((corr_I y x - mean_I y x * mean_I y x) + eps)
  let b := fun y x => mean_p y x - a y x * mean_I y x
  let mean_a := resizeModel h2 w2 h w (boxAvg h2 w2 a kh kw)
  let mean_b := resizeModel h2 w2 h w (boxAvg h2 w2 b kh kw)
  mean_a y x * g0 y x + mean_b y x

/-- The refinement method selector (`None` means soft matting; unknown
strings are rejected before any computation and are not representable). -/
inductive Method where
  | soft
  | guided
  | fast

/-- The `DehazeOutput` named tuple. -/
structure DehazeOutput where
  I : ℕ → ℕ → Fin 3 → ℝ
  dc : ℕ → ℕ → ℝ
  mask : ℕ → ℕ → Bool
  A : Fin 3 → ℝ
  tilde_t : ℕ → ℕ → ℝ
  t : ℕ → ℕ → ℝ
  J : ℕ → ℕ → Fin 3 → ℝ
  D : ℕ → ℕ → ℝ

/-- `get_depth`: `-log(t) / beta`. -/
noncomputable def get_depth (t : ℕ → ℕ → ℝ) (beta : ℝ) : ℕ → ℕ → ℝ :=
  fun y x => -Real.log (t y x) / beta

/-- `dehaze_image`, translated statement by statement: the configured
patch size reaches the standalone dark-channel stage; `get_tilde_t` is
called as `get_tilde_t(I, A)`, with its defaults `omega = 0.95` and patch
size `(15, 15)`; the refiner selected by `method` receives the remaining
options; `get_J` and `get_depth` are called with their defaults
`t0 = 0.1`, `clip = True`, `beta = 0.388`. -/
noncomputable def dehaze_image (h w : ℕ) (I : ℕ → ℕ → Fin 3 → ℝ)
    (method : Option Method) (ps : ℕ × ℕ) (tRat lam eps : ℝ) (r : ℕ)
    (ks : ℕ × ℕ) (geps : ℝ) (s : ℕ) : DehazeOutput :=
  let dc := darkChannel3 h w I ps.1 ps.2
  let mask := get_mask h w dc tRat
  let A := get_atmos_light h w I dc tRat
  let tt := get_tilde_t h w I A (19 / 20) 15 15
  let t := match method with
    | none => soft_matting h w I tt lam eps r
    | some Method.soft => soft_matting h w I tt lam eps r
    | some Method.guided => guided_filter h w I tt ks geps
    | some Method.fast => fast_guided_filter h w I tt ks geps s
  { I := I, dc := dc, mask := mask, A := A, tilde_t := tt, t := t,
    J := get_J I A t (1 / 10) true, D := get_depth t (97 / 250) }

/-- A concrete 2×2 test image with distinct pixel intensities. -/
noncomputable def cexImg : ℕ → ℕ → Fin 3 → ℝ := fun y x _ =>
  if y = 0 then (if x = 0 then 9 / 10 else 8 / 10)
  else (if x = 0 then 7 / 10 else 6 / 10)

/-! ## Theorems -/

theorem zero_mem_offs {s : ℕ} (hs : 1 ≤ s) : (0 : ℤ) ∈ offs s := by
  simp only [offs, Finset.mem_Icc]
  omega

theorem offs_subset {s t : ℕ} (hst : s ≤ t) : offs s ⊆ offs t := by
  intro d hd
  simp only [offs, Finset.mem_Icc] at hd ⊢
  omega

theorem insert_center_window {ph pw : ℕ} (hh : 1 ≤ ph) (hw : 1 ≤ pw) :
    insert ((0 : ℤ), (0 : ℤ)) (offs ph ×ˢ offs pw) = offs ph ×ˢ offs pw :=
  Finset.insert_eq_self.2 (Finset.mem_product.2 ⟨zero_mem_offs hh, zero_mem_offs hw⟩)

theorem clampIdx_coe {n y : ℕ} (hy : y < n) : clampIdx n (y : ℤ) = y := by
  unfold clampIdx
  omega

theorem minFilt_le_center {H W : ℕ} (v : ℕ → ℕ → K) (ph pw : ℕ) {y x : ℕ}
    (hy : y < H) (hx : x < W) : minFilt H W v ph pw y x ≤ v y x := by
  have h : minFilt H W v ph pw y x ≤
      v (clampIdx H ((y : ℤ) + 0)) (clampIdx W ((x : ℤ) + 0)) :=
    Finset.inf'_le _ (Finset.mem_insert_self ((0 : ℤ), (0 : ℤ)) (offs ph ×ˢ offs pw))
  rwa [add_zero, add_zero, clampIdx_coe hy, clampIdx_coe hx] at h

theorem minFilt_anti {H W : ℕ} (v : ℕ → ℕ → K) {ph pw qh qw : ℕ}
    (hq1 : ph ≤ qh) (hq2 : pw ≤ qw) (y x : ℕ) :
    minFilt H W v qh qw y x ≤ minFilt H W v ph pw y x := by
  refine Finset.le_inf' _ _ (fun d hd => Finset.inf'_le _ ?_)
  rcases Finset.mem_insert.1 hd with h | h
  · exact h ▸ Finset.mem_insert_self _ _
  · exact Finset.mem_insert_of_mem
      (Finset.product_subset_product (offs_subset hq1) (offs_subset hq2) h)

/-- Claim C6: the dark channel is bounded above by the per-pixel channel
minimum of the input, and it is pointwise non-increasing as the patch size
grows (componentwise larger patches give smaller-or-equal dark channels). -/
theorem dark_channel_le_and_antitone (H W : ℕ) (I : ℕ → ℕ → Fin 3 → K)
    (ph pw qh qw : ℕ) (h1 : 1 ≤ ph) (h2 : 1 ≤ pw) (hq1 : ph ≤ qh) (hq2 : pw ≤ qw) :
    (∀ y x, y < H → x < W → darkChannel3 H W I ph pw y x ≤ minCh3 I y x) ∧
    (∀ y x, darkChannel3 H W I qh qw y x ≤ darkChannel3 H W I ph pw y x) := by
  constructor
  · intro y x hy hx
    exact minFilt_le_center (minCh3 I) ph pw hy hx
  · intro y x
    have _ := h1
    have _ := h2
    exact minFilt_anti (minCh3 I) hq1 hq2 y x

/-- Witness for C6 at a concrete image, patch sizes 1 and 3. -/
theorem dark_channel_le_and_antitone_witness :
    (∀ y x, y < 2 → x < 2 →
      darkChannel3 2 2 (fun _ _ _ => (5 : ℚ)) 1 1 y x ≤ minCh3 (fun _ _ _ => (5 : ℚ)) y x) ∧
    (∀ y x, darkChannel3 2 2 (fun _ _ _ => (5 : ℚ)) 3 3 y x ≤
      darkChannel3 2 2 (fun _ _ _ => (5 : ℚ)) 1 1 y x) :=
  dark_channel_le_and_antitone 2 2 (fun _ _ _ => (5 : ℚ)) 1 1 3 3
    (by decide) (by decide) (by decide) (by decide)

theorem rowmajor_div {w y x : ℕ} (hx : x < w) : (y * w + x) / w = y := by
  rw [Nat.mul_comm y w, Nat.mul_add_div (by omega), Nat.div_eq_of_lt hx, Nat.add_zero]

theorem rowmajor_mod {w y x : ℕ} (hx : x < w) : (y * w + x) % w = x := by
  rw [Nat.mul_comm y w, Nat.mul_add_mod, Nat.mod_eq_of_lt hx]

theorem rowmajor_lt {h w y x : ℕ} (hy : y < h) (hx : x < w) : y * w + x < h * w :=
  calc y * w + x < y * w + w := by omega
  _ = (y + 1) * w := by ring
  _ ≤ h * w := Nat.mul_le_mul_right w hy

theorem argsort_perm (N : ℕ) (v : ℕ → K) : List.Perm (argsort N v) (List.range N) :=
  List.perm_insertionSort _ _

theorem argsort_nodup (N : ℕ) (v : ℕ → K) : (argsort N v).Nodup :=
  ((argsort_perm N v).nodup_iff).2 (List.nodup_range N)

theorem argsort_length (N : ℕ) (v : ℕ → K) : (argsort N v).length = N := by
  rw [(argsort_perm N v).length_eq, List.length_range]

theorem argsort_sorted (N : ℕ) (v : ℕ → K) : List.Sorted (valLE v) (argsort N v) :=
  List.sorted_insertionSort _ _

theorem topIdx_lt {N np p : ℕ} {v : ℕ → K} (hp : p ∈ topIdx N v np) : p < N := by
  have h1 : p ∈ argsort N v := List.mem_of_mem_drop hp
  have h2 : p ∈ List.range N := (argsort_perm N v).mem_iff.1 h1
  exact List.mem_range.1 h2

theorem topIdx_nodup (N np : ℕ) (v : ℕ → K) : (topIdx N v np).Nodup :=
  (List.drop_sublist _ _).nodup (argsort_nodup N v)

theorem topIdx_length {N np : ℕ} (v : ℕ → K) (hnp : np ≤ N) :
    (topIdx N v np).length = np := by
  rw [topIdx, List.length_drop, argsort_length]
  omega

/-- Every index selected into the top set has value at least that of every
unselected index. -/
theorem topIdx_ge {N np p q : ℕ} {v : ℕ → K} (hp : p ∈ topIdx N v np)
    (hq : q < N) (hq' : q ∉ topIdx N v np) : v q ≤ v p := by
  have hqmem : q ∈ argsort N v := (argsort_perm N v).mem_iff.2 (List.mem_range.2 hq)
  have hsplit : q ∈ (argsort N v).take (N - np) ∨ q ∈ (argsort N v).drop (N - np) := by
    rcases List.mem_append.1 (by rwa [List.take_append_drop] : q ∈
      (argsort N v).take (N - np) ++ (argsort N v).drop (N - np)) with h | h
    · exact Or.inl h
    · exact Or.inr h
  have hqtake : q ∈ (argsort N v).take (N - np) := hsplit.resolve_right hq'
  have hs := argsort_sorted N v
  rw [← List.take_append_drop (N - np) (argsort N v)] at hs
  exact (List.pairwise_append.1 hs).2.2 q hqtake p hp

/-- The number of flat indices below `h * w` satisfying a predicate on the
reshaped grid equals the number of grid positions satisfying it. -/
theorem card_grid_filter (h w : ℕ) (P : ℕ → Prop) [DecidablePred P] :
    ((Finset.range h ×ˢ Finset.range w).filter (fun yx => P (yx.1 * w + yx.2))).card
      = ((Finset.range (h * w)).filter (fun p => P p)).card := by
  rcases Nat.eq_zero_or_pos w with hw | hw
  · subst hw
    simp
  refine Finset.card_nbij' (fun yx => yx.1 * w + yx.2) (fun p => (p / w, p % w)) ?_ ?_ ?_ ?_
  · intro a ha
    simp only [Finset.mem_filter, Finset.mem_product, Finset.mem_range] at ha ⊢
    exact ⟨rowmajor_lt ha.1.1 ha.1.2, ha.2⟩
  · intro p hp
    simp only [Finset.mem_filter, Finset.mem_product, Finset.mem_range] at hp ⊢
    have hdiv : p / w < h := by
      refine Nat.div_lt_of_lt_mul ?_
      rw [Nat.mul_comm]
      exact hp.1
    have hmod : p % w < w := Nat.mod_lt _ hw
    refine ⟨⟨hdiv, hmod⟩, ?_⟩
    rw [Nat.div_add_mod' p w]
    exact hp.2
  · intro a ha
    simp only [Finset.mem_filter, Finset.mem_product, Finset.mem_range] at ha
    have h2 := ha.1.2
    rw [Prod.ext_iff]
    exact ⟨rowmajor_div h2, rowmajor_mod h2⟩
  · intro p _
    exact Nat.div_add_mod' p w

theorem mask_filter_card [FloorRing K] (h w : ℕ) (dc : ℕ → ℕ → K) (tRat : K)
    (hnp : numpix h w tRat ≤ h * w) :
    ((Finset.range (h * w)).filter
      (fun p => get_mask h w dc tRat (p / w) (p % w) = true)).card = numpix h w tRat := by
  set l := topIdx (h * w) (flat2 w dc) (numpix h w tRat) with hl
  have hset : (Finset.range (h * w)).filter
      (fun p => get_mask h w dc tRat (p / w) (p % w) = true) = l.toFinset := by
    ext p
    simp only [Finset.mem_filter, Finset.mem_range, List.mem_toFinset, get_mask,
      decide_eq_true_eq, ← hl, Nat.div_add_mod' p w]
    constructor
    · exact fun hx => hx.2
    · exact fun hx => ⟨topIdx_lt hx, hx⟩
  rw [hset, List.toFinset_card_of_nodup (topIdx_nodup _ _ _), topIdx_length _ hnp]

/-- Claim C3 (amended with the hypothesis `numpix ≤ H·W`, forced by the
counterexample `get_mask_count_cex`): under that hypothesis the selection
mask has exactly `max(1, floor(H·W·top_ratio))` true entries, ties
notwithstanding, and every true-marked pixel has dark-channel value at
least that of every false-marked pixel. -/
theorem get_mask_spec [FloorRing K] (h w : ℕ) (dc : ℕ → ℕ → K) (tRat : K)
    (hnp : numpix h w tRat ≤ h * w) :
    maskCount h w dc tRat = numpix h w tRat ∧
    (∀ y x y' x', y < h → x < w → y' < h → x' < w →
      get_mask h w dc tRat y x = true → get_mask h w dc tRat y' x' = false →
      dc y' x' ≤ dc y x) := by
  constructor
  · rw [maskCount]
    have := card_grid_filter h w
      (fun p => get_mask h w dc tRat (p / w) (p % w) = true)
    have hcongr : ((Finset.range h ×ˢ Finset.range w).filter
        (fun yx => get_mask h w dc tRat yx.1 yx.2 = true)).card
        = ((Finset.range h ×ˢ Finset.range w).filter
        (fun yx => get_mask h w dc tRat ((yx.1 * w + yx.2) / w) ((yx.1 * w + yx.2) % w)
          = true)).card := by
      congr 1
      refine Finset.filter_congr ?_
      intro yx hyx
      simp only [Finset.mem_product, Finset.mem_range] at hyx
      rw [rowmajor_div hyx.2, rowmajor_mod hyx.2]
    rw [hcongr, this, mask_filter_card h w dc tRat hnp]
  · intro y x y' x' hy hx hy' hx' htrue hfalse
    have hptop : (y * w + x) ∈ topIdx (h * w) (flat2 w dc) (numpix h w tRat) := by
      simpa [get_mask] using htrue
    have hqtop : (y' * w + x') ∉ topIdx (h * w) (flat2 w dc) (numpix h w tRat) := by
      simpa [get_mask] using hfalse
    have h5 : flat2 w dc (y' * w + x') ≤ flat2 w dc (y * w + x) :=
      topIdx_ge hptop (rowmajor_lt hy' hx') hqtop
    rwa [flat2, flat2, rowmajor_div hx, rowmajor_mod hx,
      rowmajor_div hx', rowmajor_mod hx'] at h5

theorem numpix_one_one_half : numpix (K := ℚ) 1 1 (1 / 2) = 1 := by
  have h0 : ⌊(1 : ℚ) * (1 : ℚ) * (1 / 2 : ℚ)⌋ = 0 := by norm_num
  rw [numpix, Nat.cast_one, h0]
  decide

theorem numpix_one_one_two : numpix (K := ℚ) 1 1 2 = 2 := by
  have h0 : ⌊(1 : ℚ) * (1 : ℚ) * (2 : ℚ)⌋ = 2 := by norm_num
  rw [numpix, Nat.cast_one, h0]
  decide

/-- Witness for C3 (amended) at a 1×1 map with `top_ratio = 1/2`. -/
theorem get_mask_spec_witness :
    numpix (K := ℚ) 1 1 (1 / 2) ≤ 1 * 1 ∧
    maskCount 1 1 (fun _ _ => (0 : ℚ)) (1 / 2) = numpix (K := ℚ) 1 1 (1 / 2) :=
  ⟨by have h := numpix_one_one_half; omega,
   (get_mask_spec 1 1 (fun _ _ => (0 : ℚ)) (1 / 2)
     (by have h := numpix_one_one_half; omega)).1⟩

/-- Counterexample to C3 as stated: at a 1×1 dark-channel map with
`top_ratio = 2 > 0` the mask has 1 true entry while the claimed count
`max(1, floor(H·W·top_ratio))` is 2. -/
theorem get_mask_count_cex :
    maskCount 1 1 (fun _ _ => (0 : ℚ)) 2 ≠ numpix (K := ℚ) 1 1 2 := by
  have h2 : topIdx (1 * 1) (flat2 1 (fun _ _ => (0 : ℚ))) (numpix (K := ℚ) 1 1 2)
      = [0] := by
    rw [numpix_one_one_two]
    simp [topIdx, argsort, List.range_succ]
  have h3 : get_mask 1 1 (fun _ _ => (0 : ℚ)) 2 0 0 = true := by
    simp [get_mask, h2]
  have h4 : maskCount 1 1 (fun _ _ => (0 : ℚ)) 2 = 1 := by
    rw [maskCount, show (Finset.range 1 ×ˢ Finset.range 1) = {((0 : ℕ), (0 : ℕ))} from rfl,
      Finset.filter_singleton, if_pos h3, Finset.card_singleton]
  rw [h4, numpix_one_one_two]
  omega

theorem get_mask_iff_topIdx [FloorRing K] (h w : ℕ) (dc : ℕ → ℕ → K) (tRat : K)
    (p : ℕ) : get_mask h w dc tRat (p / w) (p % w) = true ↔
      p ∈ topIdx (h * w) (flat2 w dc) (numpix h w tRat) := by
  simp [get_mask, Nat.div_add_mod' p w]

/-- The filter used in `maskMeanSpec` agrees with membership in the top
index list. -/
theorem atmos_filter_eq [FloorRing K] (h w : ℕ) (dc : ℕ → ℕ → K) (tRat : K) :
    (Finset.range (h * w)).filter
        (fun p => get_mask h w dc tRat (p / w) (p % w) = true)
      = (Finset.range (h * w)).filter
        (fun p => p ∈ topIdx (h * w) (flat2 w dc) (numpix h w tRat)) := by
  refine Finset.filter_congr ?_
  intro p _
  simp [get_mask_iff_topIdx]

/-- Claim C4 (amended with the hypotheses that the image is nonempty and
`numpix ≤ H·W`, the latter forced by the counterexample
`get_atmos_light_mean_cex`): the atmospheric light is the mean color of
the image over exactly the mask-true pixels, and consequently each of its
components lies between the minimum and maximum of the corresponding
channel over the image. -/
theorem get_atmos_light_spec [FloorRing K] (h w : ℕ) (im : ℕ → ℕ → Fin 3 → K)
    (dc : ℕ → ℕ → K) (tRat : K) (h0 : 0 < h * w) (hnp : numpix h w tRat ≤ h * w) :
    (∀ c, get_atmos_light h w im dc tRat c = maskMeanSpec h w im dc tRat c) ∧
    (∀ c, (Finset.range (h * w)).inf' (Finset.nonempty_range_iff.mpr h0.ne')
        (fun p => im (p / w) (p % w) c) ≤ get_atmos_light h w im dc tRat c ∧
      get_atmos_light h w im dc tRat c ≤
        (Finset.range (h * w)).sup' (Finset.nonempty_range_iff.mpr h0.ne')
          (fun p => im (p / w) (p % w) c)) := by
  have hcard := mask_filter_card h w dc tRat hnp
  have hsum : ∀ c, (∑ p ∈ Finset.range (h * w),
      (if p ∈ topIdx (h * w) (flat2 w dc) (numpix h w tRat) then (1 : K) else 0)
        * im (p / w) (p % w) c)
      = ∑ p ∈ (Finset.range (h * w)).filter
          (fun p => get_mask h w dc tRat (p / w) (p % w) = true), im (p / w) (p % w) c := by
    intro c
    rw [atmos_filter_eq, Finset.sum_filter]
    refine Finset.sum_congr rfl ?_
    intro p _
    rw [ite_mul, one_mul, zero_mul]
  have hnpos : (0 : K) < (numpix h w tRat : K) := by
    have : 1 ≤ numpix h w tRat := le_max_right _ 1
    exact_mod_cast Nat.lt_of_lt_of_le Nat.zero_lt_one this
  constructor
  · intro c
    rw [get_atmos_light, maskMeanSpec, hsum c, hcard]
  · intro c
    have hAc : get_atmos_light h w im dc tRat c
        = (∑ p ∈ (Finset.range (h * w)).filter
            (fun p => get_mask h w dc tRat (p / w) (p % w) = true),
          im (p / w) (p % w) c) / (numpix h w tRat : K) := by
      rw [get_atmos_light, hsum c]
    constructor
    · rw [hAc, le_div_iff₀ hnpos]
      have hlow : ∀ p ∈ (Finset.range (h * w)).filter
          (fun p => get_mask h w dc tRat (p / w) (p % w) = true),
          (Finset.range (h * w)).inf'
            (Finset.nonempty_range_iff.mpr h0.ne') (fun p => im (p / w) (p % w) c)
            ≤ im (p / w) (p % w) c := by
        intro p hp
        exact Finset.inf'_le _ (Finset.mem_of_mem_filter p hp)
      have h1 := Finset.sum_le_sum hlow
      rw [Finset.sum_const, hcard, nsmul_eq_mul] at h1
      linarith [h1]
    · rw [hAc, div_le_iff₀ hnpos]
      have hup : ∀ p ∈ (Finset.range (h * w)).filter
          (fun p => get_mask h w dc tRat (p / w) (p % w) = true),
          im (p / w) (p % w) c ≤ (Finset.range (h * w)).sup'
            (Finset.nonempty_range_iff.mpr h0.ne') (fun p => im (p / w) (p % w) c) := by
        intro p hp
        exact Finset.le_sup' (fun p => im (p / w) (p % w) c)
          (Finset.mem_of_mem_filter p hp)
      have h1 := Finset.sum_le_sum hup
      rw [Finset.sum_const, hcard, nsmul_eq_mul] at h1
      linarith [h1]

/-- Witness for C4 (amended) at a 1×1 constant image. -/
theorem get_atmos_light_spec_witness :
    ((0 : ℕ) < 1 * 1 ∧ numpix (K := ℚ) 1 1 (1 / 2) ≤ 1 * 1) ∧
    (∀ c, get_atmos_light 1 1 (fun _ _ _ => (2 : ℚ)) (fun _ _ => (0 : ℚ)) (1 / 2) c
      = maskMeanSpec 1 1 (fun _ _ _ => (2 : ℚ)) (fun _ _ => (0 : ℚ)) (1 / 2) c) :=
  ⟨⟨by norm_num, by have h := numpix_one_one_half; omega⟩,
   (get_atmos_light_spec 1 1 (fun _ _ _ => (2 : ℚ)) (fun _ _ => (0 : ℚ)) (1 / 2)
     (by norm_num) (by have h := numpix_one_one_half; omega)).1⟩

theorem topIdx_one_one_two :
    topIdx (1 * 1) (flat2 1 (fun _ _ => (0 : ℚ))) (numpix (K := ℚ) 1 1 2) = [0] := by
  rw [numpix_one_one_two]
  simp [topIdx, argsort, List.range_succ]

/-- Counterexample to C4 as stated: at a 1×1 all-ones image with
`top_ratio = 2` the code divides by `numpix = 2` although only one pixel is
masked, so the result 1/2 is not the mean color over the masked pixels
(which is 1), and it also falls below the channel minimum of the image. -/
theorem get_atmos_light_mean_cex :
    get_atmos_light 1 1 (fun _ _ _ => (1 : ℚ)) (fun _ _ => (0 : ℚ)) 2 0
      ≠ maskMeanSpec 1 1 (fun _ _ _ => (1 : ℚ)) (fun _ _ => (0 : ℚ)) 2 0 := by
  have hmem : (0 : ℕ) ∈ topIdx (1 * 1) (flat2 1 (fun _ _ => (0 : ℚ)))
      (numpix (K := ℚ) 1 1 2) := by
    rw [topIdx_one_one_two]
    simp
  have hL : get_atmos_light 1 1 (fun _ _ _ => (1 : ℚ)) (fun _ _ => (0 : ℚ)) 2 0
      = 1 / 2 := by
    rw [get_atmos_light]
    rw [show (1 * 1 : ℕ) = 1 from rfl, Finset.sum_range_one, if_pos hmem,
      numpix_one_one_two]
    norm_num
  have hfilter : (Finset.range (1 * 1)).filter
      (fun p => get_mask 1 1 (fun _ _ => (0 : ℚ)) 2 (p / 1) (p % 1) = true)
      = {0} := by
    ext p
    simp only [Finset.mem_filter, Finset.mem_range, Finset.mem_singleton]
    constructor
    · intro hp
      omega
    · intro hp
      subst hp
      refine ⟨by omega, ?_⟩
      rw [get_mask_iff_topIdx]
      exact hmem
  have hR : maskMeanSpec 1 1 (fun _ _ _ => (1 : ℚ)) (fun _ _ => (0 : ℚ)) 2 0 = 1 := by
    rw [maskMeanSpec, hfilter]
    norm_num
  rw [hL, hR]
  norm_num

/-- Claim C7: with transmission identically 1 and `clip = false`, scene
recovery returns the original image exactly, for every floor
`t0` in `(0, 1]`. -/
theorem get_J_identity (I : ℕ → ℕ → Fin 3 → K) (A : Fin 3 → K) (t0 : K)
    (_h0 : 0 < t0) (h1 : t0 ≤ 1) :
    get_J I A (fun _ _ => (1 : K)) t0 false = I := by
  funext y x c
  have hclip : np_clip (1 : K) t0 1 = 1 := by
    unfold np_clip
    rw [max_eq_left h1, min_self]
  simp [get_J, hclip]

/-- Witness for C7 at `t0 = 1` over `ℚ`. -/
theorem get_J_identity_witness :
    get_J (fun _ _ _ => (3 : ℚ)) (fun _ => (2 : ℚ)) (fun _ _ => (1 : ℚ)) 1 false =
      (fun _ _ _ => (3 : ℚ)) :=
  get_J_identity (fun _ _ _ => (3 : ℚ)) (fun _ => (2 : ℚ)) 1 (by decide) (by decide)


theorem nebSize_pos (r : ℕ) : 0 < nebSize r := by
  rw [nebSize]
  positivity

theorem nebSize_cast_pos (r : ℕ) : (0 : K) < (nebSize r : K) := by
  exact_mod_cast nebSize_pos r

theorem nebSize_cast_ne (r : ℕ) : ((nebSize r : K)) ≠ 0 :=
  ne_of_gt (nebSize_cast_pos r)

/-- The centered window rows sum to zero in each channel. -/
theorem sum_winX (I : ℕ → ℕ → Fin 3 → K) (r i j : ℕ) (c : Fin 3) :
    ∑ a ∈ Finset.range (nebSize r), winX I r i j a c = 0 := by
  have hn := nebSize_cast_ne (K := K) r
  simp only [winX, winMu]
  rw [Finset.sum_sub_distrib, Finset.sum_const, Finset.card_range, nsmul_eq_mul]
  field_simp

theorem matInv_symm {m : Type} [Fintype m] [DecidableEq m] {M : Matrix m m K}
    (h : Mᵀ = M) : (matInv M)ᵀ = matInv M := by
  rw [matInv, Matrix.transpose_smul, Matrix.adjugate_transpose, h]

theorem winCov_symm (I : ℕ → ℕ → Fin 3 → K) (eps : K) (r i j : ℕ) :
    (winCov I eps r i j)ᵀ = winCov I eps r i j := by
  ext c d
  simp only [Matrix.transpose_apply, winCov, Matrix.of_apply]
  have h1 : ∑ a ∈ Finset.range (nebSize r), winV I r i j a d * winV I r i j a c
      = ∑ a ∈ Finset.range (nebSize r), winV I r i j a c * winV I r i j a d :=
    Finset.sum_congr rfl fun a _ => mul_comm _ _
  rw [h1, mul_comm (winMu I r i j d) (winMu I r i j c)]
  congr 1
  by_cases hcd : c = d
  · rw [hcd]
  · rw [if_neg fun hh => hcd hh.symm, if_neg hcd]

theorem winVar_symm (I : ℕ → ℕ → Fin 3 → K) (eps : K) (r i j : ℕ) (c d : Fin 3) :
    winVar I eps r i j c d = winVar I eps r i j d c := by
  have h := matInv_symm (winCov_symm I eps r i j)
  calc winVar I eps r i j c d = (matInv (winCov I eps r i j))ᵀ d c := rfl
    _ = matInv (winCov I eps r i j) d c := by rw [h]
    _ = winVar I eps r i j d c := rfl

/-- The per-window affinity block is symmetric. -/
theorem tvals_symm (I : ℕ → ℕ → Fin 3 → K) (eps : K) (r i j a b : ℕ) :
    tvals I eps r i j a b = tvals I eps r i j b a := by
  rw [tvals, tvals]
  congr 2
  calc ∑ c : Fin 3, ∑ d : Fin 3,
        winX I r i j a c * winVar I eps r i j c d * winX I r i j b d
      = ∑ d : Fin 3, ∑ c : Fin 3,
        winX I r i j a c * winVar I eps r i j c d * winX I r i j b d :=
        Finset.sum_comm
    _ = ∑ c : Fin 3, ∑ d : Fin 3,
        winX I r i j b c * winVar I eps r i j c d * winX I r i j a d := by
        refine Finset.sum_congr rfl fun c _ => Finset.sum_congr rfl fun d _ => ?_
        rw [winVar_symm I eps r i j d c]
        ring

/-- Each column of the affinity block sums to 1 (the centered rows sum to
zero, so the quadratic part contributes nothing). -/
theorem tvals_sum_left (I : ℕ → ℕ → Fin 3 → K) (eps : K) (r i j b : ℕ) :
    ∑ a ∈ Finset.range (nebSize r), tvals I eps r i j a b = 1 := by
  have hn := nebSize_cast_ne (K := K) r
  simp only [tvals]
  rw [← Finset.sum_div, Finset.sum_add_distrib, Finset.sum_const, Finset.card_range,
    nsmul_eq_mul, mul_one]
  have hzero : ∑ a ∈ Finset.range (nebSize r), ∑ c : Fin 3, ∑ d : Fin 3,
      winX I r i j a c * winVar I eps r i j c d * winX I r i j b d = 0 := by
    rw [Finset.sum_comm]
    refine Finset.sum_eq_zero fun c _ => ?_
    rw [Finset.sum_comm]
    refine Finset.sum_eq_zero fun d _ => ?_
    have : ∑ a ∈ Finset.range (nebSize r),
        winX I r i j a c * winVar I eps r i j c d * winX I r i j b d
        = (∑ a ∈ Finset.range (nebSize r), winX I r i j a c)
            * (winVar I eps r i j c d * winX I r i j b d) := by
      rw [Finset.sum_mul]
      exact Finset.sum_congr rfl fun a _ => by ring
    rw [this, sum_winX, zero_mul]
  rw [hzero, add_zero, div_self hn]

theorem tvals_sum_right (I : ℕ → ℕ → Fin 3 → K) (eps : K) (r i j a : ℕ) :
    ∑ b ∈ Finset.range (nebSize r), tvals I eps r i j a b = 1 := by
  have h : ∑ b ∈ Finset.range (nebSize r), tvals I eps r i j a b
      = ∑ b ∈ Finset.range (nebSize r), tvals I eps r i j b a :=
    Finset.sum_congr rfl fun b _ => tvals_symm I eps r i j a b
  rw [h, tvals_sum_left]

theorem centers_mem {h w r i j : ℕ} (hij : (i, j) ∈ centers h w r) :
    r ≤ i ∧ i < h - r ∧ r ≤ j ∧ j < w - r := by
  simp only [centers, Finset.mem_product, Finset.mem_Ico] at hij
  exact ⟨hij.1.1, hij.1.2, hij.2.1, hij.2.2⟩

theorem wRow_lt {h r i a : ℕ} (h1 : r ≤ i) (h2 : i < h - r)
    (ha : a < nebSize r) : wRow r i a < h := by
  have hm : 0 < 2 * r + 1 := by omega
  have hdiv : a / (2 * r + 1) < 2 * r + 1 := by
    rw [Nat.div_lt_iff_lt_mul hm]
    calc a < nebSize r := ha
    _ = (2 * r + 1) * (2 * r + 1) := by rw [nebSize]; ring
  rw [wRow]
  set qa := a / (2 * r + 1)
  omega

theorem wCol_lt {w r j a : ℕ} (h1 : r ≤ j) (h2 : j < w - r) : wCol r j a < w := by
  have hm : 0 < 2 * r + 1 := by omega
  have hmod : a % (2 * r + 1) < 2 * r + 1 := Nat.mod_lt _ hm
  rw [wCol]
  set ra := a % (2 * r + 1)
  omega

/-- Every window pixel index is a valid flat image index. -/
theorem wInd_lt {h w r i j a : ℕ} (hij : (i, j) ∈ centers h w r)
    (ha : a < nebSize r) : wInd w r i j a < h * w := by
  obtain ⟨h1, h2, h3, h4⟩ := centers_mem hij
  exact rowmajor_lt (wRow_lt h1 h2 ha) (wCol_lt h3 h4)

/-- Within one window the pixel indices are distinct. -/
theorem wInd_inj {h w r i j : ℕ} (hij : (i, j) ∈ centers h w r) {a b : ℕ}
    (hab : wInd w r i j a = wInd w r i j b) : a = b := by
  obtain ⟨h1, h2, h3, h4⟩ := centers_mem hij
  have hm : 0 < 2 * r + 1 := by omega
  have hca : wCol r j a < w := wCol_lt h3 h4
  have hcb : wCol r j b < w := wCol_lt h3 h4
  have hrow : wRow r i a = wRow r i b := by
    have ha' : (wInd w r i j a) / w = wRow r i a := by
      rw [wInd]
      exact rowmajor_div hca
    have hb' : (wInd w r i j b) / w = wRow r i b := by
      rw [wInd]
      exact rowmajor_div hcb
    rw [← ha', ← hb', hab]
  have hcol : wCol r j a = wCol r j b := by
    have ha' : (wInd w r i j a) % w = wCol r j a := by
      rw [wInd]
      exact rowmajor_mod hca
    have hb' : (wInd w r i j b) % w = wCol r j b := by
      rw [wInd]
      exact rowmajor_mod hcb
    rw [← ha', ← hb', hab]
  have hdiv : a / (2 * r + 1) = b / (2 * r + 1) := by
    rw [wRow, wRow] at hrow
    omega
  have hmod : a % (2 * r + 1) = b % (2 * r + 1) := by
    rw [wCol, wCol] at hcol
    omega
  have ha2 := Nat.div_add_mod a (2 * r + 1)
  rw [hdiv, hmod, Nat.div_add_mod b (2 * r + 1)] at ha2
  exact ha2.symm

/-- The accumulated affinity matrix is symmetric. -/
theorem affinity_symm (h w : ℕ) (I : ℕ → ℕ → Fin 3 → K) (eps : K) (r p q : ℕ) :
    affinity h w I eps r p q = affinity h w I eps r q p := by
  rw [affinity, affinity]
  refine Finset.sum_congr rfl fun ij _ => ?_
  rw [Finset.sum_comm]
  refine Finset.sum_congr rfl fun a _ => Finset.sum_congr rfl fun b _ => ?_
  rw [tvals_symm]
  by_cases hc : wInd w r ij.1 ij.2 a = p ∧ wInd w r ij.1 ij.2 b = q
  · rw [if_pos hc, if_pos ⟨hc.2, hc.1⟩]
  · rw [if_neg hc, if_neg fun hh => hc ⟨hh.2, hh.1⟩]

/-- The row sums of the affinity matrix count, with multiplicity over
windows, the pixels of the row index (each window block has unit column
sums). -/
theorem rowSumA_eq (h w : ℕ) (I : ℕ → ℕ → Fin 3 → K) (eps : K) (r p : ℕ) :
    rowSumA h w I eps r p = ∑ ij ∈ centers h w r, ∑ b ∈ Finset.range (nebSize r),
      if wInd w r ij.1 ij.2 b = p then (1 : K) else 0 := by
  rw [rowSumA]
  simp only [affinity]
  rw [Finset.sum_comm]
  refine Finset.sum_congr rfl fun ij hij => ?_
  have hstep : ∀ q ∈ Finset.range (h * w),
      (∑ a ∈ Finset.range (nebSize r), ∑ b ∈ Finset.range (nebSize r),
        if wInd w r ij.1 ij.2 b = p ∧ wInd w r ij.1 ij.2 a = q
        then tvals I eps r ij.1 ij.2 a b else 0)
      = ∑ a ∈ Finset.range (nebSize r), ∑ b ∈ Finset.range (nebSize r),
        if wInd w r ij.1 ij.2 a = q
        then (if wInd w r ij.1 ij.2 b = p then tvals I eps r ij.1 ij.2 a b else 0)
        else 0 := by
    intro q _
    refine Finset.sum_congr rfl fun a _ => Finset.sum_congr rfl fun b _ => ?_
    by_cases h1 : wInd w r ij.1 ij.2 a = q
    · by_cases h2 : wInd w r ij.1 ij.2 b = p
      · rw [if_pos ⟨h2, h1⟩, if_pos h1, if_pos h2]
      · rw [if_neg fun hh => h2 hh.1, if_pos h1, if_neg h2]
    · rw [if_neg fun hh => h1 hh.2, if_neg h1]
  rw [Finset.sum_congr rfl hstep]
  rw [Finset.sum_comm]
  have hcollapse : ∀ a ∈ Finset.range (nebSize r),
      (∑ q ∈ Finset.range (h * w), ∑ b ∈ Finset.range (nebSize r),
        if wInd w r ij.1 ij.2 a = q
        then (if wInd w r ij.1 ij.2 b = p then tvals I eps r ij.1 ij.2 a b else 0)
        else 0)
      = ∑ b ∈ Finset.range (nebSize r),
        if wInd w r ij.1 ij.2 b = p then tvals I eps r ij.1 ij.2 a b else 0 := by
    intro a ha
    rw [Finset.sum_comm]
    refine Finset.sum_congr rfl fun b _ => ?_
    rw [Finset.sum_ite_eq (Finset.range (h * w)) (wInd w r ij.1 ij.2 a),
      if_pos (Finset.mem_range.mpr (wInd_lt hij (Finset.mem_range.mp ha)))]
  rw [Finset.sum_congr rfl hcollapse, Finset.sum_comm]
  refine Finset.sum_congr rfl fun b _ => ?_
  rw [Finset.sum_ite_irrel]
  by_cases hb : wInd w r ij.1 ij.2 b = p
  · rw [if_pos hb, if_pos hb, tvals_sum_left]
  · rw [if_neg hb, if_neg hb, Finset.sum_const_zero]

/-- Quadratic form of the regularized covariance: an explicit sum of
squares plus the `eps / neb_size` ridge term. -/
theorem winCov_quad (I : ℕ → ℕ → Fin 3 → K) (eps : K) (r i j : ℕ) (u : Fin 3 → K) :
    ∑ c : Fin 3, ∑ d : Fin 3, u c * winCov I eps r i j c d * u d
      = (∑ a ∈ Finset.range (nebSize r), (∑ c : Fin 3, winX I r i j a c * u c) ^ 2)
          / (nebSize r : K)
        + eps / (nebSize r : K) * ∑ c : Fin 3, (u c) ^ 2 := by
  have hn := nebSize_cast_ne (K := K) r
  have hsplit : ∑ c : Fin 3, ∑ d : Fin 3, u c * winCov I eps r i j c d * u d
      = (∑ c : Fin 3, ∑ d : Fin 3, u c * ((∑ a ∈ Finset.range (nebSize r),
            winV I r i j a c * winV I r i j a d) / (nebSize r : K)) * u d)
        - (∑ c : Fin 3, ∑ d : Fin 3, u c * (winMu I r i j c * winMu I r i j d) * u d)
        + (∑ c : Fin 3, ∑ d : Fin 3, u c
            * (if c = d then eps / (nebSize r : K) else 0) * u d) := by
    rw [← Finset.sum_sub_distrib, ← Finset.sum_add_distrib]
    refine Finset.sum_congr rfl fun c _ => ?_
    rw [← Finset.sum_sub_distrib, ← Finset.sum_add_distrib]
    refine Finset.sum_congr rfl fun d _ => ?_
    simp only [winCov, Matrix.of_apply]
    ring
  have hT1 : ∑ c : Fin 3, ∑ d : Fin 3, u c * ((∑ a ∈ Finset.range (nebSize r),
        winV I r i j a c * winV I r i j a d) / (nebSize r : K)) * u d
      = (∑ a ∈ Finset.range (nebSize r),
          (∑ c : Fin 3, winV I r i j a c * u c) ^ 2) / (nebSize r : K) := by
    have h1 : ∀ c d : Fin 3, u c * ((∑ a ∈ Finset.range (nebSize r),
        winV I r i j a c * winV I r i j a d) / (nebSize r : K)) * u d
        = (∑ a ∈ Finset.range (nebSize r),
            (winV I r i j a c * u c) * (winV I r i j a d * u d)) / (nebSize r : K) := by
      intro c d
      rw [mul_comm (u c), div_mul_eq_mul_div, div_mul_eq_mul_div]
      congr 1
      rw [Finset.sum_mul, Finset.sum_mul]
      refine Finset.sum_congr rfl fun a _ => ?_
      ring
    have h2 : ∑ c : Fin 3, ∑ d : Fin 3, ∑ a ∈ Finset.range (nebSize r),
        (winV I r i j a c * u c) * (winV I r i j a d * u d)
        = ∑ a ∈ Finset.range (nebSize r),
          (∑ c : Fin 3, winV I r i j a c * u c) ^ 2 := by
      have hc1 : ∑ c : Fin 3, ∑ d : Fin 3, ∑ a ∈ Finset.range (nebSize r),
          (winV I r i j a c * u c) * (winV I r i j a d * u d)
          = ∑ a ∈ Finset.range (nebSize r), ∑ c : Fin 3, ∑ d : Fin 3,
            (winV I r i j a c * u c) * (winV I r i j a d * u d) := by
        rw [show (∑ c : Fin 3, ∑ d : Fin 3, ∑ a ∈ Finset.range (nebSize r),
            (winV I r i j a c * u c) * (winV I r i j a d * u d))
            = ∑ c : Fin 3, ∑ a ∈ Finset.range (nebSize r), ∑ d : Fin 3,
            (winV I r i j a c * u c) * (winV I r i j a d * u d)
          from Finset.sum_congr rfl fun c _ => Finset.sum_comm]
        exact Finset.sum_comm
      rw [hc1]
      refine Finset.sum_congr rfl fun a _ => ?_
      rw [pow_two, Finset.sum_mul_sum]
    rw [Finset.sum_congr rfl fun c (_ : c ∈ Finset.univ) =>
      Finset.sum_congr rfl fun d (_ : d ∈ Finset.univ) => h1 c d]
    rw [Finset.sum_congr rfl fun c (_ : c ∈ Finset.univ) =>
      (Finset.sum_div _ _ _).symm]
    rw [(Finset.sum_div _ _ _).symm, h2]
  have hT2 : ∑ c : Fin 3, ∑ d : Fin 3,
        u c * (winMu I r i j c * winMu I r i j d) * u d
      = (∑ c : Fin 3, winMu I r i j c * u c) ^ 2 := by
    have h1 : ∑ c : Fin 3, ∑ d : Fin 3, u c * (winMu I r i j c * winMu I r i j d) * u d
        = ∑ c : Fin 3, ∑ d : Fin 3,
          (winMu I r i j c * u c) * (winMu I r i j d * u d) := by
      refine Finset.sum_congr rfl fun c _ => Finset.sum_congr rfl fun d _ => ?_
      ring
    rw [h1, ← Finset.sum_mul_sum, ← pow_two]
  have hT3 : ∑ c : Fin 3, ∑ d : Fin 3,
        u c * (if c = d then eps / (nebSize r : K) else 0) * u d
      = eps / (nebSize r : K) * ∑ c : Fin 3, (u c) ^ 2 := by
    have h1 : ∀ c : Fin 3, ∑ d : Fin 3,
        u c * (if c = d then eps / (nebSize r : K) else 0) * u d
        = u c * (eps / (nebSize r : K)) * u c := by
      intro c
      simp only [mul_ite, ite_mul, mul_zero, zero_mul]
      rw [Fintype.sum_ite_eq]
    rw [Finset.sum_congr rfl fun c (_ : c ∈ Finset.univ) => h1 c, Finset.mul_sum]
    refine Finset.sum_congr rfl fun c _ => ?_
    rw [pow_two]
    ring
  have hmF : (nebSize r : K) * (∑ c : Fin 3, winMu I r i j c * u c)
      = ∑ a ∈ Finset.range (nebSize r), ∑ c : Fin 3, winV I r i j a c * u c := by
    rw [Finset.mul_sum]
    have h1 : ∀ c : Fin 3, (nebSize r : K) * (winMu I r i j c * u c)
        = ∑ a ∈ Finset.range (nebSize r), winV I r i j a c * u c := by
      intro c
      simp only [winMu]
      rw [div_mul_eq_mul_div, mul_div_assoc']
      rw [mul_comm ((nebSize r : K)) _, mul_div_assoc, div_self hn, mul_one,
        Finset.sum_mul]
    rw [Finset.sum_congr rfl fun c (_ : c ∈ Finset.univ) => h1 c, Finset.sum_comm]
  have hXF : ∀ a : ℕ, (∑ c : Fin 3, winX I r i j a c * u c)
      = (∑ c : Fin 3, winV I r i j a c * u c)
        - (∑ c : Fin 3, winMu I r i j c * u c) := by
    intro a
    rw [← Finset.sum_sub_distrib]
    refine Finset.sum_congr rfl fun c _ => ?_
    rw [winX]
    ring
  have hC : ∑ a ∈ Finset.range (nebSize r), (∑ c : Fin 3, winX I r i j a c * u c) ^ 2
      = (∑ a ∈ Finset.range (nebSize r),
          (∑ c : Fin 3, winV I r i j a c * u c) ^ 2)
        - (nebSize r : K) * (∑ c : Fin 3, winMu I r i j c * u c) ^ 2 := by
    have h1 : ∑ a ∈ Finset.range (nebSize r),
        (∑ c : Fin 3, winX I r i j a c * u c) ^ 2
        = ∑ a ∈ Finset.range (nebSize r),
          ((∑ c : Fin 3, winV I r i j a c * u c) ^ 2
            - 2 * (∑ c : Fin 3, winMu I r i j c * u c)
              * (∑ c : Fin 3, winV I r i j a c * u c)
            + (∑ c : Fin 3, winMu I r i j c * u c) ^ 2) := by
      refine Finset.sum_congr rfl fun a _ => ?_
      rw [hXF a]
      ring
    rw [h1, Finset.sum_add_distrib, Finset.sum_sub_distrib, Finset.sum_const,
      Finset.card_range, nsmul_eq_mul, ← Finset.mul_sum, ← hmF]
    ring
  rw [hsplit, hT1, hT2, hT3, hC, sub_div]
  rw [mul_comm ((nebSize r : K)) _, mul_div_assoc, div_self hn, mul_one]

/-- The regularized covariance has positive quadratic form away from 0. -/
theorem winCov_posdef (I : ℕ → ℕ → Fin 3 → K) (eps : K) (r i j : ℕ)
    (heps : 0 < eps) (u : Fin 3 → K) (hu : u ≠ 0) :
    0 < ∑ c : Fin 3, ∑ d : Fin 3, u c * winCov I eps r i j c d * u d := by
  rw [winCov_quad]
  have hn := nebSize_cast_pos (K := K) r
  have h1 : 0 ≤ (∑ a ∈ Finset.range (nebSize r),
      (∑ c : Fin 3, winX I r i j a c * u c) ^ 2) / (nebSize r : K) :=
    div_nonneg (Finset.sum_nonneg fun a _ => sq_nonneg _) (le_of_lt hn)
  have h2 : 0 < ∑ c : Fin 3, (u c) ^ 2 := by
    obtain ⟨c, hc⟩ := Function.ne_iff.mp hu
    refine Finset.sum_pos' (fun d _ => sq_nonneg _) ⟨c, Finset.mem_univ c, ?_⟩
    rw [pow_two]
    exact mul_self_pos.mpr hc
  have h3 : 0 < eps / (nebSize r : K) * ∑ c : Fin 3, (u c) ^ 2 :=
    mul_pos (div_pos heps hn) h2
  linarith

/-- With positive regularization the covariance is invertible. -/
theorem winCov_det_ne (I : ℕ → ℕ → Fin 3 → K) (eps : K) (r i j : ℕ)
    (heps : 0 < eps) : (winCov I eps r i j).det ≠ 0 := by
  intro hdet
  obtain ⟨u, hu, hmul⟩ := Matrix.exists_mulVec_eq_zero_iff.mpr hdet
  have h0 : ∑ c : Fin 3, ∑ d : Fin 3, u c * winCov I eps r i j c d * u d = 0 := by
    have hent : ∀ c : Fin 3, ∑ d : Fin 3, winCov I eps r i j c d * u d = 0 := by
      intro c
      have h := congrFun hmul c
      simpa [Matrix.mulVec, Matrix.dotProduct] using h
    have hpull : ∀ c ∈ Finset.univ, ∑ d : Fin 3, u c * winCov I eps r i j c d * u d
        = u c * ∑ d : Fin 3, winCov I eps r i j c d * u d := by
      intro c _
      rw [Finset.mul_sum]
      exact Finset.sum_congr rfl fun d _ => by ring
    rw [Finset.sum_congr rfl hpull]
    refine Finset.sum_eq_zero fun c _ => ?_
    rw [hent c, mul_zero]
  exact absurd h0 (ne_of_gt (winCov_posdef I eps r i j heps u hu))

/-- The executable inverse really inverts the regularized covariance. -/
theorem winCov_mul_winVar (I : ℕ → ℕ → Fin 3 → K) (eps : K) (r i j : ℕ)
    (heps : 0 < eps) : winCov I eps r i j * winVar I eps r i j = 1 := by
  rw [winVar, matInv, Matrix.mul_smul, Matrix.mul_adjugate, smul_smul,
    inv_mul_cancel₀ (winCov_det_ne I eps r i j heps), one_smul]

/-- Entrywise form of the inverse identity. -/
theorem winCov_mulVec_winVar (I : ℕ → ℕ → Fin 3 → K) (eps : K) (r i j : ℕ)
    (heps : 0 < eps) (z : Fin 3 → K) (c : Fin 3) :
    ∑ d : Fin 3, winCov I eps r i j c d
        * (∑ e : Fin 3, winVar I eps r i j d e * z e) = z c := by
  have h := winCov_mul_winVar I eps r i j heps
  have h1 : ∀ d ∈ Finset.univ, winCov I eps r i j c d
      * (∑ e : Fin 3, winVar I eps r i j d e * z e)
      = ∑ e : Fin 3, winCov I eps r i j c d * winVar I eps r i j d e * z e := by
    intro d _
    rw [Finset.mul_sum]
    exact Finset.sum_congr rfl fun e _ => by ring
  rw [Finset.sum_congr rfl h1, Finset.sum_comm]
  have h2 : ∀ e ∈ Finset.univ, ∑ d : Fin 3,
      winCov I eps r i j c d * winVar I eps r i j d e * z e
      = (winCov I eps r i j * winVar I eps r i j) c e * z e := by
    intro e _
    rw [Matrix.mul_apply, Finset.sum_mul]
  rw [Finset.sum_congr rfl h2, h]
  simp [Matrix.one_apply]

/-- Core inequality behind positive semidefiniteness: on every window the
affinity block is dominated by the identity in quadratic form. -/
theorem window_quad_le (I : ℕ → ℕ → Fin 3 → K) (eps : K) (r i j : ℕ)
    (heps : 0 < eps) (ww : ℕ → K) :
    ∑ a ∈ Finset.range (nebSize r), ∑ b ∈ Finset.range (nebSize r),
      ww b * tvals I eps r i j a b * ww a
    ≤ ∑ b ∈ Finset.range (nebSize r), (ww b) ^ 2 := by
  have hn := nebSize_cast_ne (K := K) r
  set s : K := ∑ a ∈ Finset.range (nebSize r), ww a with hs
  set w' : ℕ → K := fun a => ww a - s / (nebSize r : K) with hw'
  set z : Fin 3 → K := fun c =>
    ∑ a ∈ Finset.range (nebSize r), w' a * winX I r i j a c with hz
  set uu : Fin 3 → K := fun c => ∑ d : Fin 3, winVar I eps r i j c d * z d with huu
  set q : ℕ → K := fun a => ∑ c : Fin 3, winX I r i j a c * uu c with hq
  -- the full-weight channel sums coincide with the centered ones
  have hzfull : ∀ c : Fin 3,
      ∑ a ∈ Finset.range (nebSize r), ww a * winX I r i j a c = z c := by
    intro c
    have h1 : ∀ a ∈ Finset.range (nebSize r), ww a * winX I r i j a c
        = w' a * winX I r i j a c + s / (nebSize r : K) * winX I r i j a c := by
      intro a _
      rw [hw']
      ring
    rw [Finset.sum_congr rfl h1, Finset.sum_add_distrib, ← Finset.mul_sum,
      sum_winX, mul_zero, add_zero, hz]
  -- expansion of the quadratic form of the affinity block
  have hmain : ∑ a ∈ Finset.range (nebSize r), ∑ b ∈ Finset.range (nebSize r),
      ww b * tvals I eps r i j a b * ww a
      = s ^ 2 / (nebSize r : K)
        + (∑ c : Fin 3, ∑ d : Fin 3, z c * winVar I eps r i j c d * z d)
          / (nebSize r : K) := by
    have hexp : ∀ a ∈ Finset.range (nebSize r), ∀ b ∈ Finset.range (nebSize r),
        ww b * tvals I eps r i j a b * ww a
        = (ww a * ww b) / (nebSize r : K)
          + (∑ c : Fin 3, ∑ d : Fin 3, (ww a * winX I r i j a c)
              * winVar I eps r i j c d * (ww b * winX I r i j b d))
            / (nebSize r : K) := by
      intro a _ b _
      rw [tvals, mul_comm (ww b) _, div_mul_eq_mul_div, div_mul_eq_mul_div,
        div_add_div_same]
      congr 1
      have hT : (∑ c : Fin 3, ∑ d : Fin 3, winX I r i j a c
            * winVar I eps r i j c d * winX I r i j b d) * ww b * ww a
          = ∑ c : Fin 3, ∑ d : Fin 3, (ww a * winX I r i j a c)
            * winVar I eps r i j c d * (ww b * winX I r i j b d) := by
        rw [Finset.sum_mul, Finset.sum_mul]
        refine Finset.sum_congr rfl fun c _ => ?_
        rw [Finset.sum_mul, Finset.sum_mul]
        refine Finset.sum_congr rfl fun d _ => ?_
        ring
      calc (1 + ∑ c : Fin 3, ∑ d : Fin 3, winX I r i j a c
            * winVar I eps r i j c d * winX I r i j b d) * ww b * ww a
          = ww a * ww b + (∑ c : Fin 3, ∑ d : Fin 3, winX I r i j a c
            * winVar I eps r i j c d * winX I r i j b d) * ww b * ww a := by ring
        _ = ww a * ww b + ∑ c : Fin 3, ∑ d : Fin 3, (ww a * winX I r i j a c)
            * winVar I eps r i j c d * (ww b * winX I r i j b d) := by rw [hT]
    rw [Finset.sum_congr rfl fun a ha => Finset.sum_congr rfl fun b hb =>
      hexp a ha b hb]
    rw [Finset.sum_congr rfl fun a (_ : a ∈ Finset.range (nebSize r)) =>
      Finset.sum_add_distrib]
    rw [Finset.sum_add_distrib]
    congr 1
    · -- the rank-one part sums to s^2 / n
      rw [Finset.sum_congr rfl fun a (_ : a ∈ Finset.range (nebSize r)) =>
        (Finset.sum_div _ _ _).symm]
      rw [(Finset.sum_div _ _ _).symm]
      congr 1
      rw [← Finset.sum_mul_sum, ← hs, pow_two]
    · -- the quadratic part contracts to z V z / n
      rw [Finset.sum_congr rfl fun a (_ : a ∈ Finset.range (nebSize r)) =>
        (Finset.sum_div _ _ _).symm]
      rw [(Finset.sum_div _ _ _).symm]
      congr 1
      -- push the b-sum inside
      have hstep1 : ∀ a ∈ Finset.range (nebSize r),
          ∑ b ∈ Finset.range (nebSize r), ∑ c : Fin 3, ∑ d : Fin 3,
            (ww a * winX I r i j a c) * winVar I eps r i j c d
              * (ww b * winX I r i j b d)
          = ∑ c : Fin 3, ∑ d : Fin 3, (ww a * winX I r i j a c)
              * winVar I eps r i j c d * z d := by
        intro a _
        rw [show ∑ b ∈ Finset.range (nebSize r), ∑ c : Fin 3, ∑ d : Fin 3,
            (ww a * winX I r i j a c) * winVar I eps r i j c d
              * (ww b * winX I r i j b d)
          = ∑ c : Fin 3, ∑ b ∈ Finset.range (nebSize r), ∑ d : Fin 3,
            (ww a * winX I r i j a c) * winVar I eps r i j c d
              * (ww b * winX I r i j b d) from Finset.sum_comm]
        refine Finset.sum_congr rfl fun c _ => ?_
        rw [Finset.sum_comm]
        refine Finset.sum_congr rfl fun d _ => ?_
        rw [← Finset.mul_sum, ← hzfull d]
      rw [Finset.sum_congr rfl hstep1]
      -- push the a-sum inside
      rw [Finset.sum_comm]
      refine Finset.sum_congr rfl fun c _ => ?_
      rw [Finset.sum_comm]
      refine Finset.sum_congr rfl fun d _ => ?_
      rw [← hzfull c, Finset.sum_mul, Finset.sum_mul]
  -- the centered weights absorb the rank-one part
  have hsum_w' : ∑ a ∈ Finset.range (nebSize r), w' a = 0 := by
    have h1 : ∀ a ∈ Finset.range (nebSize r), w' a
        = ww a - s / (nebSize r : K) := fun a _ => by rw [hw']
    rw [Finset.sum_congr rfl h1, Finset.sum_sub_distrib, Finset.sum_const,
      Finset.card_range, nsmul_eq_mul, ← hs]
    field_simp
  have hws : ∑ b ∈ Finset.range (nebSize r), (ww b) ^ 2
      = (∑ a ∈ Finset.range (nebSize r), (w' a) ^ 2) + s ^ 2 / (nebSize r : K) := by
    have h1 : ∀ a ∈ Finset.range (nebSize r), (ww a) ^ 2
        = (w' a) ^ 2 + 2 * (s / (nebSize r : K)) * w' a
          + (s / (nebSize r : K)) ^ 2 := by
      intro a _
      rw [hw']
      ring
    rw [Finset.sum_congr rfl h1, Finset.sum_add_distrib, Finset.sum_add_distrib,
      ← Finset.mul_sum, hsum_w', mul_zero, add_zero, Finset.sum_const,
      Finset.card_range, nsmul_eq_mul]
    congr 1
    rw [div_pow]
    rw [pow_two ((nebSize r : K))]
    field_simp
    ring
  -- z V z written through uu
  have hzu : ∑ c : Fin 3, ∑ d : Fin 3, z c * winVar I eps r i j c d * z d
      = ∑ c : Fin 3, z c * uu c := by
    refine Finset.sum_congr rfl fun c _ => ?_
    rw [huu, Finset.mul_sum]
    refine Finset.sum_congr rfl fun d _ => ?_
    ring
  -- the weighted centered rows against uu give z uu as well
  have hXu : ∑ a ∈ Finset.range (nebSize r), w' a * q a
      = ∑ c : Fin 3, z c * uu c := by
    have h1 : ∀ a ∈ Finset.range (nebSize r), w' a * q a
        = ∑ c : Fin 3, (w' a * winX I r i j a c) * uu c := by
      intro a _
      rw [hq, Finset.mul_sum]
      refine Finset.sum_congr rfl fun c _ => ?_
      ring
    rw [Finset.sum_congr rfl h1, Finset.sum_comm]
    refine Finset.sum_congr rfl fun c _ => ?_
    rw [hz, Finset.sum_mul]
  -- the covariance identity applied to uu
  have hCovz : ∑ c : Fin 3, uu c * z c
      = (∑ a ∈ Finset.range (nebSize r), (q a) ^ 2) / (nebSize r : K)
        + eps / (nebSize r : K) * ∑ c : Fin 3, (uu c) ^ 2 := by
    have h1 := winCov_quad I eps r i j uu
    have h2 : ∀ c ∈ Finset.univ, ∑ d : Fin 3, uu c * winCov I eps r i j c d * uu d
        = uu c * z c := by
      intro c _
      have h3 : ∀ d ∈ Finset.univ, uu c * winCov I eps r i j c d * uu d
          = uu c * (winCov I eps r i j c d * uu d) := fun d _ => by ring
      rw [Finset.sum_congr rfl h3, ← Finset.mul_sum]
      congr 1
      exact winCov_mulVec_winVar I eps r i j heps z c
    rw [Finset.sum_congr rfl h2] at h1
    rw [h1]
  -- completion of squares
  have hcs : 0 ≤ ∑ a ∈ Finset.range (nebSize r),
      (w' a - q a / (nebSize r : K)) ^ 2 :=
    Finset.sum_nonneg fun a _ => sq_nonneg _
  have hcs2 : ∑ a ∈ Finset.range (nebSize r), (w' a - q a / (nebSize r : K)) ^ 2
      = (∑ a ∈ Finset.range (nebSize r), (w' a) ^ 2)
        - 2 / (nebSize r : K) * ∑ a ∈ Finset.range (nebSize r), w' a * q a
        + (∑ a ∈ Finset.range (nebSize r), (q a) ^ 2) / (nebSize r : K) ^ 2 := by
    have h1 : ∀ a ∈ Finset.range (nebSize r),
        (w' a - q a / (nebSize r : K)) ^ 2
        = (w' a) ^ 2 - 2 / (nebSize r : K) * (w' a * q a)
          + (q a) ^ 2 / (nebSize r : K) ^ 2 := by
      intro a _
      field_simp
      ring
    rw [Finset.sum_congr rfl h1, Finset.sum_add_distrib, Finset.sum_sub_distrib,
      ← Finset.mul_sum, ← Finset.sum_div]
  -- assemble
  have hQn : (∑ a ∈ Finset.range (nebSize r), (q a) ^ 2) / (nebSize r : K) ^ 2
      = (∑ c : Fin 3, z c * uu c) / (nebSize r : K)
        - eps / (nebSize r : K) ^ 2 * ∑ c : Fin 3, (uu c) ^ 2 := by
    have hcomm : ∑ c : Fin 3, uu c * z c = ∑ c : Fin 3, z c * uu c :=
      Finset.sum_congr rfl fun c _ => mul_comm _ _
    have h1 := hCovz
    rw [hcomm] at h1
    field_simp at h1
    have h2 : (∑ a ∈ Finset.range (nebSize r), q a ^ 2)
        = (∑ c : Fin 3, z c * uu c) * (nebSize r : K)
          - eps * ∑ c : Fin 3, (uu c) ^ 2 := by
      linarith [h1]
    rw [h2, pow_two, sub_div, ← div_div, mul_div_cancel_right₀ _ hn,
      div_mul_eq_mul_div]
  have hfinal : (∑ c : Fin 3, z c * uu c) / (nebSize r : K)
      ≤ ∑ a ∈ Finset.range (nebSize r), (w' a) ^ 2 := by
    have heu : 0 ≤ eps / (nebSize r : K) ^ 2 * ∑ c : Fin 3, (uu c) ^ 2 := by
      have h2 : (0 : K) < (nebSize r : K) ^ 2 := by positivity
      exact mul_nonneg (le_of_lt (div_pos heps h2))
        (Finset.sum_nonneg fun c _ => sq_nonneg _)
    have h3 := hcs
    rw [hcs2, hXu, hQn] at h3
    have h4 : 2 / (nebSize r : K) * ∑ c : Fin 3, z c * uu c
        = 2 * ((∑ c : Fin 3, z c * uu c) / (nebSize r : K)) := by ring
    rw [h4] at h3
    linarith
  rw [hmain, hzu, hws]
  linarith

theorem triple_comm {α β γ : Type} (sa : Finset α) (sb : Finset β)
    (sc : Finset γ) (f : α → β → γ → K) :
    ∑ a ∈ sa, ∑ b ∈ sb, ∑ c ∈ sc, f a b c
      = ∑ c ∈ sc, ∑ a ∈ sa, ∑ b ∈ sb, f a b c := by
  rw [show (∑ a ∈ sa, ∑ b ∈ sb, ∑ c ∈ sc, f a b c)
      = ∑ a ∈ sa, ∑ c ∈ sc, ∑ b ∈ sb, f a b c from
    Finset.sum_congr rfl fun a _ => Finset.sum_comm]
  exact Finset.sum_comm

theorem sum_sum_ite_pair {M pb qa : ℕ} {f : ℕ → ℕ → K} (hpb : pb < M)
    (hqa : qa < M) :
    ∑ p ∈ Finset.range M, ∑ q ∈ Finset.range M,
      (if pb = p ∧ qa = q then f p q else 0) = f pb qa := by
  have h1 : ∀ p ∈ Finset.range M, ∑ q ∈ Finset.range M,
      (if pb = p ∧ qa = q then f p q else 0)
      = if pb = p then f p qa else 0 := by
    intro p _
    by_cases hp : pb = p
    · simp only [hp, true_and, eq_self_iff_true, if_true]
      rw [Finset.sum_ite_eq, if_pos (Finset.mem_range.mpr hqa)]
    · rw [if_neg hp]
      refine Finset.sum_eq_zero fun q _ => ?_
      rw [if_neg fun hc => hp hc.1]
  rw [Finset.sum_congr rfl h1, Finset.sum_ite_eq, if_pos (Finset.mem_range.mpr hpb)]

/-- The Laplacian quadratic form decomposes into per-window differences. -/
theorem laplace_quadform_eq (h w : ℕ) (I : ℕ → ℕ → Fin 3 → K) (eps : K) (r : ℕ)
    (v : ℕ → K) :
    ∑ p ∈ Finset.range (h * w), ∑ q ∈ Finset.range (h * w),
      v p * get_laplace_matting_matrix h w I eps r p q * v q
    = ∑ ij ∈ centers h w r,
        ((∑ b ∈ Finset.range (nebSize r), (v (wInd w r ij.1 ij.2 b)) ^ 2)
          - ∑ a ∈ Finset.range (nebSize r), ∑ b ∈ Finset.range (nebSize r),
              v (wInd w r ij.1 ij.2 b) * tvals I eps r ij.1 ij.2 a b
                * v (wInd w r ij.1 ij.2 a)) := by
  have hsplit : ∑ p ∈ Finset.range (h * w), ∑ q ∈ Finset.range (h * w),
      v p * get_laplace_matting_matrix h w I eps r p q * v q
      = (∑ p ∈ Finset.range (h * w), ∑ q ∈ Finset.range (h * w),
          v p * (if p = q then rowSumA h w I eps r p else 0) * v q)
        - ∑ p ∈ Finset.range (h * w), ∑ q ∈ Finset.range (h * w),
          v p * affinity h w I eps r p q * v q := by
    rw [← Finset.sum_sub_distrib]
    refine Finset.sum_congr rfl fun p _ => ?_
    rw [← Finset.sum_sub_distrib]
    refine Finset.sum_congr rfl fun q _ => ?_
    rw [get_laplace_matting_matrix]
    ring
  have hdiag : ∑ p ∈ Finset.range (h * w), ∑ q ∈ Finset.range (h * w),
      v p * (if p = q then rowSumA h w I eps r p else 0) * v q
      = ∑ ij ∈ centers h w r, ∑ b ∈ Finset.range (nebSize r),
          (v (wInd w r ij.1 ij.2 b)) ^ 2 := by
    have h1 : ∀ p ∈ Finset.range (h * w), ∑ q ∈ Finset.range (h * w),
        v p * (if p = q then rowSumA h w I eps r p else 0) * v q
        = v p * rowSumA h w I eps r p * v p := by
      intro p hp
      simp only [mul_ite, ite_mul, mul_zero, zero_mul]
      rw [Finset.sum_ite_eq, if_pos hp]
    have h2 : ∀ p ∈ Finset.range (h * w), v p * rowSumA h w I eps r p * v p
        = ∑ ij ∈ centers h w r, ∑ b ∈ Finset.range (nebSize r),
            (if wInd w r ij.1 ij.2 b = p then (v p) ^ 2 else 0) := by
      intro p _
      rw [rowSumA_eq, Finset.mul_sum, Finset.sum_mul]
      refine Finset.sum_congr rfl fun ij _ => ?_
      rw [Finset.mul_sum, Finset.sum_mul]
      refine Finset.sum_congr rfl fun b _ => ?_
      by_cases hc : wInd w r ij.1 ij.2 b = p
      · rw [if_pos hc, if_pos hc, mul_one, pow_two]
      · rw [if_neg hc, if_neg hc, mul_zero, zero_mul]
    rw [Finset.sum_congr rfl h1, Finset.sum_congr rfl h2, Finset.sum_comm]
    refine Finset.sum_congr rfl fun ij hij => ?_
    rw [Finset.sum_comm]
    refine Finset.sum_congr rfl fun b hb => ?_
    rw [Finset.sum_ite_eq,
      if_pos (Finset.mem_range.mpr (wInd_lt hij (Finset.mem_range.mp hb)))]
  have hoff : ∑ p ∈ Finset.range (h * w), ∑ q ∈ Finset.range (h * w),
      v p * affinity h w I eps r p q * v q
      = ∑ ij ∈ centers h w r,
          ∑ a ∈ Finset.range (nebSize r), ∑ b ∈ Finset.range (nebSize r),
            v (wInd w r ij.1 ij.2 b) * tvals I eps r ij.1 ij.2 a b
              * v (wInd w r ij.1 ij.2 a) := by
    have h1 : ∀ p ∈ Finset.range (h * w), ∀ q ∈ Finset.range (h * w),
        v p * affinity h w I eps r p q * v q
        = ∑ ij ∈ centers h w r,
            ∑ a ∈ Finset.range (nebSize r), ∑ b ∈ Finset.range (nebSize r),
              if wInd w r ij.1 ij.2 b = p ∧ wInd w r ij.1 ij.2 a = q
              then v p * tvals I eps r ij.1 ij.2 a b * v q else 0 := by
      intro p _ q _
      rw [affinity, Finset.mul_sum, Finset.sum_mul]
      refine Finset.sum_congr rfl fun ij _ => ?_
      rw [Finset.mul_sum, Finset.sum_mul]
      refine Finset.sum_congr rfl fun a _ => ?_
      rw [Finset.mul_sum, Finset.sum_mul]
      refine Finset.sum_congr rfl fun b _ => ?_
      by_cases hc : wInd w r ij.1 ij.2 b = p ∧ wInd w r ij.1 ij.2 a = q
      · rw [if_pos hc, if_pos hc]
      · rw [if_neg hc, if_neg hc, mul_zero, zero_mul]
    rw [Finset.sum_congr rfl fun p hp => Finset.sum_congr rfl fun q hq =>
      h1 p hp q hq]
    rw [triple_comm]
    refine Finset.sum_congr rfl fun ij hij => ?_
    rw [triple_comm]
    refine Finset.sum_congr rfl fun a ha => ?_
    rw [triple_comm]
    refine Finset.sum_congr rfl fun b hb => ?_
    exact sum_sum_ite_pair (wInd_lt hij (Finset.mem_range.mp hb))
      (wInd_lt hij (Finset.mem_range.mp ha))
  rw [hsplit, hdiag, hoff, ← Finset.sum_sub_distrib]

/-- Claim C1: the matting Laplacian construction returns `D − A_affinity`
where `D` is the diagonal of row sums of the accumulated affinity matrix;
consequently it is symmetric, every row over the valid flat indices sums
to zero, it is positive semidefinite, and an entry `(p, q)` is nonzero
only when pixels `p` and `q` co-occur in some `(2·win_size+1)²` window. -/
theorem laplace_matting_matrix_props (h w : ℕ) (I : ℕ → ℕ → Fin 3 → K)
    (eps : K) (r : ℕ) (heps : 0 < eps) :
    (∀ p q, get_laplace_matting_matrix h w I eps r p q
      = (if p = q then rowSumA h w I eps r p else 0) - affinity h w I eps r p q) ∧
    (∀ p q, get_laplace_matting_matrix h w I eps r p q
      = get_laplace_matting_matrix h w I eps r q p) ∧
    (∀ p ∈ Finset.range (h * w),
      ∑ q ∈ Finset.range (h * w), get_laplace_matting_matrix h w I eps r p q = 0) ∧
    (∀ v : ℕ → K, 0 ≤ ∑ p ∈ Finset.range (h * w), ∑ q ∈ Finset.range (h * w),
      v p * get_laplace_matting_matrix h w I eps r p q * v q) ∧
    (∀ p q, get_laplace_matting_matrix h w I eps r p q ≠ 0 →
      sharesWindow h w r p q) := by
  refine ⟨fun p q => rfl, ?_, ?_, ?_, ?_⟩
  · intro p q
    rw [get_laplace_matting_matrix, get_laplace_matting_matrix, affinity_symm]
    by_cases hpq : p = q
    · subst hpq
      rfl
    · rw [if_neg hpq, if_neg fun hh => hpq hh.symm]
  · intro p hp
    simp only [get_laplace_matting_matrix]
    rw [Finset.sum_sub_distrib]
    have h1 : ∑ q ∈ Finset.range (h * w),
        (if p = q then rowSumA h w I eps r p else 0) = rowSumA h w I eps r p := by
      rw [Finset.sum_ite_eq, if_pos hp]
    rw [h1, ← rowSumA, sub_self]
  · intro v
    rw [laplace_quadform_eq]
    refine Finset.sum_nonneg fun ij _ => ?_
    rw [sub_nonneg]
    exact window_quad_le I eps r ij.1 ij.2 heps
      (fun k => v (wInd w r ij.1 ij.2 k))
  · intro p q hL
    by_contra hns
    apply hL
    have haff : affinity h w I eps r p q = 0 := by
      rw [affinity]
      refine Finset.sum_eq_zero fun ij hij => Finset.sum_eq_zero fun a ha =>
        Finset.sum_eq_zero fun b hb => ?_
      rw [if_neg]
      intro hc
      exact hns ⟨ij, hij, ⟨b, hb, hc.1⟩, ⟨a, ha, hc.2⟩⟩
    have hdiag0 : (if p = q then rowSumA h w I eps r p else 0) = 0 := by
      by_cases hpq : p = q
      · rw [if_pos hpq]
        subst hpq
        rw [rowSumA_eq]
        refine Finset.sum_eq_zero fun ij hij => Finset.sum_eq_zero fun b hb => ?_
        rw [if_neg]
        intro hc
        exact hns ⟨ij, hij, ⟨b, hb, hc⟩, ⟨b, hb, hc⟩⟩
      · rw [if_neg hpq]
    rw [get_laplace_matting_matrix, haff, hdiag0, sub_zero]

/-- Witness for C1 at a concrete instance with `eps = 1`. -/
theorem laplace_matting_matrix_props_witness :
    (0 : ℚ) < 1 ∧
    (∀ p q, get_laplace_matting_matrix 1 1 (fun _ _ _ => (0 : ℚ)) 1 1 p q
      = get_laplace_matting_matrix 1 1 (fun _ _ _ => (0 : ℚ)) 1 1 q p) :=
  ⟨by norm_num,
   (laplace_matting_matrix_props 1 1 (fun _ _ _ => (0 : ℚ)) 1 1 (by norm_num)).2.1⟩

/-- Positive semidefiniteness of the Laplacian quadratic form. -/
theorem laplace_psd (h w : ℕ) (I : ℕ → ℕ → Fin 3 → K) (eps : K) (r : ℕ)
    (heps : 0 < eps) (v : ℕ → K) :
    0 ≤ ∑ p ∈ Finset.range (h * w), ∑ q ∈ Finset.range (h * w),
      v p * get_laplace_matting_matrix h w I eps r p q * v q := by
  rw [laplace_quadform_eq]
  refine Finset.sum_nonneg fun ij _ => ?_
  rw [sub_nonneg]
  exact window_quad_le I eps r ij.1 ij.2 heps (fun k => v (wInd w r ij.1 ij.2 k))

/-- The Fin-indexed quadratic form of `lapMat` agrees with the range-sum
form over the zero-extended vector. -/
theorem lapMat_quad_nonneg (h w : ℕ) (I : ℕ → ℕ → Fin 3 → K) (eps : K) (r : ℕ)
    (heps : 0 < eps) (x : Fin (h * w) → K) :
    0 ≤ ∑ p : Fin (h * w), ∑ q : Fin (h * w),
      x p * lapMat h w I eps r p q * x q := by
  set v : ℕ → K := fun k => if hk : k < h * w then x ⟨k, hk⟩ else 0 with hv
  have hx : ∀ p : Fin (h * w), x p = v p.val := by
    intro p
    rw [hv]
    simp
  have hconv : ∑ p : Fin (h * w), ∑ q : Fin (h * w),
      x p * lapMat h w I eps r p q * x q
      = ∑ p ∈ Finset.range (h * w), ∑ q ∈ Finset.range (h * w),
        v p * get_laplace_matting_matrix h w I eps r p q * v q := by
    have h1 : ∀ p : Fin (h * w), ∑ q : Fin (h * w),
        x p * lapMat h w I eps r p q * x q
        = ∑ qn ∈ Finset.range (h * w),
          v p.val * get_laplace_matting_matrix h w I eps r p.val qn * v qn := by
      intro p
      rw [← Fin.sum_univ_eq_sum_range
        (fun qn => v p.val * get_laplace_matting_matrix h w I eps r p.val qn * v qn)
        (h * w)]
      refine Finset.sum_congr rfl fun q _ => ?_
      rw [hx p, hx q]
      rfl
    rw [Finset.sum_congr rfl fun p (_ : p ∈ Finset.univ) => h1 p]
    exact Fin.sum_univ_eq_sum_range
      (fun pn => ∑ qn ∈ Finset.range (h * w),
        v pn * get_laplace_matting_matrix h w I eps r pn qn * v qn) (h * w)
  rw [hconv]
  exact laplace_psd h w I eps r heps v

/-- Rows of the system matrix. -/
theorem sysMat_mulVec_apply (h w : ℕ) (I : ℕ → ℕ → Fin 3 → K) (eps lam : K)
    (r : ℕ) (x : Fin (h * w) → K) (p : Fin (h * w)) :
    (sysMat h w I eps lam r).mulVec x p
      = (∑ q : Fin (h * w), lapMat h w I eps r p q * x q) + lam * x p := by
  rw [sysMat, Matrix.add_mulVec, Matrix.smul_mulVec_assoc, Matrix.one_mulVec]
  simp [Matrix.mulVec, Matrix.dotProduct]

/-- Only the zero vector is annihilated by the system matrix. -/
theorem sysMat_mulVec_zero (h w : ℕ) (I : ℕ → ℕ → Fin 3 → K) (eps lam : K)
    (r : ℕ) (heps : 0 < eps) (hlam : 0 < lam) (x : Fin (h * w) → K)
    (hx : (sysMat h w I eps lam r).mulVec x = 0) : x = 0 := by
  have hquad : ∑ p : Fin (h * w), x p * (sysMat h w I eps lam r).mulVec x p = 0 := by
    refine Finset.sum_eq_zero fun p _ => ?_
    rw [hx]
    simp
  have hexpand : ∑ p : Fin (h * w), x p * (sysMat h w I eps lam r).mulVec x p
      = (∑ p : Fin (h * w), ∑ q : Fin (h * w), x p * lapMat h w I eps r p q * x q)
        + lam * ∑ p : Fin (h * w), (x p) ^ 2 := by
    have h1 : ∀ p ∈ Finset.univ, x p * (sysMat h w I eps lam r).mulVec x p
        = (∑ q : Fin (h * w), x p * lapMat h w I eps r p q * x q)
          + lam * (x p) ^ 2 := by
      intro p _
      rw [sysMat_mulVec_apply, mul_add, Finset.mul_sum]
      congr 1
      · exact Finset.sum_congr rfl fun q _ => by ring
      · ring
    rw [Finset.sum_congr rfl h1, Finset.sum_add_distrib, Finset.mul_sum]
  have hL := lapMat_quad_nonneg h w I eps r heps x
  have hsq : ∑ p : Fin (h * w), (x p) ^ 2 ≤ 0 := by
    by_contra hpos
    push_neg at hpos
    have : 0 < lam * ∑ p : Fin (h * w), (x p) ^ 2 := mul_pos hlam hpos
    rw [hexpand] at hquad
    linarith
  have hall : ∀ p ∈ Finset.univ, (x p) ^ 2 = 0 := by
    have hnn : ∀ p ∈ Finset.univ, 0 ≤ (x p : K) ^ 2 := fun p _ => sq_nonneg _
    have hz : ∑ p : Fin (h * w), (x p) ^ 2 = 0 :=
      le_antisymm hsq (Finset.sum_nonneg hnn)
    exact (Finset.sum_eq_zero_iff_of_nonneg hnn).mp hz
  funext p
  have := hall p (Finset.mem_univ p)
  exact pow_eq_zero_iff (n := 2) (by omega) |>.mp this

/-- The system matrix is invertible. -/
theorem sysMat_det_ne (h w : ℕ) (I : ℕ → ℕ → Fin 3 → K) (eps lam : K) (r : ℕ)
    (heps : 0 < eps) (hlam : 0 < lam) :
    (sysMat h w I eps lam r).det ≠ 0 := by
  intro hdet
  obtain ⟨x, hx0, hmul⟩ := Matrix.exists_mulVec_eq_zero_iff.mpr hdet
  exact hx0 (sysMat_mulVec_zero h w I eps lam r heps hlam x hmul)

theorem sysMat_mul_matInv (h w : ℕ) (I : ℕ → ℕ → Fin 3 → K) (eps lam : K)
    (r : ℕ) (heps : 0 < eps) (hlam : 0 < lam) :
    sysMat h w I eps lam r * matInv (sysMat h w I eps lam r) = 1 := by
  rw [matInv, Matrix.mul_smul, Matrix.mul_adjugate, smul_smul,
    inv_mul_cancel₀ (sysMat_det_ne h w I eps lam r heps hlam), one_smul]

theorem matInv_mul_sysMat (h w : ℕ) (I : ℕ → ℕ → Fin 3 → K) (eps lam : K)
    (r : ℕ) (heps : 0 < eps) (hlam : 0 < lam) :
    matInv (sysMat h w I eps lam r) * sysMat h w I eps lam r = 1 := by
  rw [matInv, Matrix.smul_mul, Matrix.adjugate_mul, smul_smul,
    inv_mul_cancel₀ (sysMat_det_ne h w I eps lam r heps hlam), one_smul]

/-- Claim C2: the iterative entry point `soft_matting` and the direct
entry point `get_t`, applied to the same Laplacian and raw transmission,
return the same map, namely the unique solution of the symmetric
positive-definite system `(L + lam I) t = lam p` reshaped to the 2-D
shape. -/
theorem soft_matting_get_t_agree (h w : ℕ) (I : ℕ → ℕ → Fin 3 → K)
    (p : ℕ → ℕ → K) (lam eps : K) (r : ℕ) (hlam : 0 < lam) (heps : 0 < eps) :
    soft_matting h w I p lam eps r = get_t h w (lapMat h w I eps r) p lam ∧
    (sysMat h w I eps lam r).mulVec
        (spsolve (sysMat h w I eps lam r) (fun k => lam * flatVec h w p k))
      = (fun k => lam * flatVec h w p k) ∧
    (∀ t : Fin (h * w) → K,
      (sysMat h w I eps lam r).mulVec t = (fun k => lam * flatVec h w p k) →
      t = spsolve (sysMat h w I eps lam r) (fun k => lam * flatVec h w p k)) ∧
    soft_matting h w I p lam eps r
      = reshape2 h w (spsolve (sysMat h w I eps lam r)
          (fun k => lam * flatVec h w p k)) := by
  refine ⟨rfl, ?_, ?_, rfl⟩
  · rw [spsolve, Matrix.mulVec_mulVec,
      sysMat_mul_matInv h w I eps lam r heps hlam, Matrix.one_mulVec]
  · intro t ht
    rw [spsolve, ← ht, Matrix.mulVec_mulVec,
      matInv_mul_sysMat h w I eps lam r heps hlam, Matrix.one_mulVec]

/-- Witness for C2 at a concrete instance with `lam = eps = 1`. -/
theorem soft_matting_get_t_agree_witness :
    (0 : ℚ) < 1 ∧ (0 : ℚ) < 1 ∧
    soft_matting 1 1 (fun _ _ _ => (0 : ℚ)) (fun _ _ => (0 : ℚ)) 1 1 1
      = get_t 1 1 (lapMat 1 1 (fun _ _ _ => (0 : ℚ)) 1 1) (fun _ _ => (0 : ℚ)) 1 :=
  ⟨by norm_num, by norm_num,
   (soft_matting_get_t_agree 1 1 (fun _ _ _ => (0 : ℚ)) (fun _ _ => (0 : ℚ)) 1 1 1
     (by norm_num) (by norm_num)).1⟩

/-- Claim C9 (code bug): `soft_matting` destructures the solver result
`t, info` and returns the reshaped iterate whatever the convergence flag
is; no warning is reported (there is no check of `info` at all), though
the best available iterate is indeed returned rather than failing. -/
theorem soft_matting_discards_info (h w : ℕ) (t : Fin (h * w) → K) (i1 i2 : ℤ) :
    soft_matting_post h w (t, i1) = soft_matting_post h w (t, i2) ∧
    soft_matting_post h w (t, i1) = reshape2 h w t :=
  ⟨rfl, rfl⟩

theorem clampIdx_one (i : ℤ) : clampIdx 1 i = 0 := by
  unfold clampIdx
  omega

theorem clampIdx_le {n : ℕ} (hn : 1 ≤ n) (i : ℤ) : clampIdx n i ≤ n - 1 := by
  unfold clampIdx
  omega

/-- On a 1×1 image the minimum filter returns the single pixel. -/
theorem minFilt_one (v : ℕ → ℕ → K) (ph pw y x : ℕ) :
    minFilt 1 1 v ph pw y x = v 0 0 := by
  rw [minFilt]
  rw [show (fun d : ℤ × ℤ => v (clampIdx 1 ((y : ℤ) + d.1))
      (clampIdx 1 ((x : ℤ) + d.2))) = fun _ => v 0 0 from
    funext fun d => by rw [clampIdx_one, clampIdx_one]]
  exact Finset.inf'_const _ _

/-- With patch size (1, 1) the minimum filter is the identity (up to
boundary clamping). -/
theorem minFilt_pt (H W : ℕ) (v : ℕ → ℕ → K) (y x : ℕ) :
    minFilt H W v 1 1 y x = v (clampIdx H (y : ℤ)) (clampIdx W (x : ℤ)) := by
  refine le_antisymm ?_ ?_
  · have h1 : minFilt H W v 1 1 y x
        ≤ v (clampIdx H ((y : ℤ) + 0)) (clampIdx W ((x : ℤ) + 0)) :=
      Finset.inf'_le _ (Finset.mem_insert_self ((0 : ℤ), (0 : ℤ)) (offs 1 ×ˢ offs 1))
    rwa [add_zero, add_zero] at h1
  · refine Finset.le_inf' _ _ fun d hd => ?_
    have hd0 : d = ((0 : ℤ), (0 : ℤ)) := by
      rw [show insert ((0 : ℤ), (0 : ℤ)) (offs 1 ×ˢ offs 1)
        = {((0 : ℤ), (0 : ℤ))} from by decide] at hd
      exact Finset.mem_singleton.1 hd
    subst hd0
    simp

theorem card_offsConv (s : ℕ) (hs : 1 ≤ s) : (offsConv s).card = s := by
  rw [offsConv, Int.card_Icc]
  omega

/-- On a 1×1 image the box filter returns the single pixel. -/
theorem boxAvg_one (v : ℕ → ℕ → K) {kh kw : ℕ} (h1 : 1 ≤ kh) (h2 : 1 ≤ kw)
    (y x : ℕ) : boxAvg 1 1 v kh kw y x = v 0 0 := by
  rw [boxAvg]
  rw [show (fun d : ℤ × ℤ => v (clampIdx 1 ((y : ℤ) + d.1))
      (clampIdx 1 ((x : ℤ) + d.2))) = fun _ => v 0 0 from
    funext fun d => by rw [clampIdx_one, clampIdx_one]]
  rw [Finset.sum_const, Finset.card_product, card_offsConv kh h1,
    card_offsConv kw h2, nsmul_eq_mul, Nat.cast_mul]
  have hne : ((kh : K) * (kw : K)) ≠ 0 := by
    have hkh : ((kh : K)) ≠ 0 := Nat.cast_ne_zero.mpr (by omega)
    have hkw : ((kw : K)) ≠ 0 := Nat.cast_ne_zero.mpr (by omega)
    exact mul_ne_zero hkh hkw
  rw [mul_comm, mul_div_assoc, div_self hne, mul_one]

theorem topIdx_one (v : ℕ → K) (np : ℕ) (hnp : 1 ≤ np) :
    topIdx (1 * 1) v np = [0] := by
  rw [topIdx, argsort]
  rw [show List.range (1 * 1) = [0] from rfl]
  rw [show (1 * 1 - np) = 0 from by omega]
  simp [List.insertionSort]

/-- Claim C5 (amended as forced by the counterexample
`dehaze_patch_size_cex`): the top-level entry point passes the configured
patch size only to the standalone dark-channel stage; the dark channel
inside the raw-transmission stage always uses the defaults
`omega = 0.95`, patch size `(15, 15)`, and scene recovery and depth are
always invoked with their defaults `t0 = 0.1`, `clip = true`,
`beta = 0.388` (no `t0`, `clip` or `beta` configuration reaches them). -/
theorem dehaze_defaults (h w : ℕ) (I : ℕ → ℕ → Fin 3 → ℝ)
    (method : Option Method) (ps : ℕ × ℕ) (tRat lam eps : ℝ) (r : ℕ)
    (ks : ℕ × ℕ) (geps : ℝ) (s : ℕ) :
    (dehaze_image h w I method ps tRat lam eps r ks geps s).dc
      = darkChannel3 h w I ps.1 ps.2 ∧
    (dehaze_image h w I method ps tRat lam eps r ks geps s).tilde_t
      = get_tilde_t h w I
          (get_atmos_light h w I (darkChannel3 h w I ps.1 ps.2) tRat) (19 / 20) 15 15 ∧
    (dehaze_image h w I method ps tRat lam eps r ks geps s).J
      = get_J I (dehaze_image h w I method ps tRat lam eps r ks geps s).A
          (dehaze_image h w I method ps tRat lam eps r ks geps s).t (1 / 10) true ∧
    (dehaze_image h w I method ps tRat lam eps r ks geps s).D
      = get_depth (dehaze_image h w I method ps tRat lam eps r ks geps s).t (97 / 250) :=
  ⟨rfl, rfl, rfl, rfl⟩

/-- Claim C10: the depth map of the output bundle is `-ln(t)/0.388`
applied to the refined transmission exactly as the selected refiner
returned it, without the `t0` floor of scene recovery; wherever that
transmission is positive, the depth entry is nonnegative precisely when
the transmission is at most 1 (so it is finite and nonnegative only on
`(0, 1]` there, and negative for transmission above 1). -/
theorem dehaze_depth_spec (h w : ℕ) (I : ℕ → ℕ → Fin 3 → ℝ)
    (method : Option Method) (ps : ℕ × ℕ) (tRat lam eps : ℝ) (r : ℕ)
    (ks : ℕ × ℕ) (geps : ℝ) (s : ℕ) :
    (dehaze_image h w I method ps tRat lam eps r ks geps s).D
      = (fun y x => -Real.log
          ((dehaze_image h w I method ps tRat lam eps r ks geps s).t y x)
          / (97 / 250)) ∧
    ∀ y x, 0 < (dehaze_image h w I method ps tRat lam eps r ks geps s).t y x →
      (0 ≤ (dehaze_image h w I method ps tRat lam eps r ks geps s).D y x
        ↔ (dehaze_image h w I method ps tRat lam eps r ks geps s).t y x ≤ 1) := by
  constructor
  · rfl
  · intro y x hpos
    have hD : (dehaze_image h w I method ps tRat lam eps r ks geps s).D y x
        = -Real.log ((dehaze_image h w I method ps tRat lam eps r ks geps s).t y x)
          / (97 / 250) := rfl
    rw [hD, le_div_iff₀ (by norm_num : (0 : ℝ) < 97 / 250), zero_mul, neg_nonneg]
    exact Real.log_nonpos_iff hpos

/-- The refined transmission of the 1×1 constant pipeline run through the
guided filter equals the raw transmission 1/20. -/
theorem dehaze_guided_one_t :
    (dehaze_image 1 1 (fun _ _ _ => (1 / 2 : ℝ)) (some Method.guided) (15, 15)
      (1 / 1000) (1 / 10000) (1 / 10000000) 1 (41, 41) (1 / 1000) 4).t 0 0
    = 1 / 20 := by
  have hnum : numpix (K := ℝ) 1 1 (1 / 1000) = 1 := by
    have h0 : ⌊(1 : ℝ) * (1 : ℝ) * (1 / 1000)⌋ = 0 := by norm_num
    rw [numpix, Nat.cast_one, h0]
    decide
  have htop : topIdx (1 * 1)
      (flat2 1 (darkChannel3 1 1 (fun _ _ _ => (1 / 2 : ℝ)) 15 15))
      (numpix (K := ℝ) 1 1 (1 / 1000)) = [0] := by
    rw [hnum]
    exact topIdx_one _ _ (le_refl 1)
  have hA : ∀ c, get_atmos_light 1 1 (fun _ _ _ => (1 / 2 : ℝ))
      (darkChannel3 1 1 (fun _ _ _ => (1 / 2 : ℝ)) 15 15) (1 / 1000) c = 1 / 2 := by
    intro c
    rw [get_atmos_light, htop, hnum]
    rw [show Finset.range (1 * 1) = {0} from rfl, Finset.sum_singleton]
    norm_num
  have htt : get_tilde_t 1 1 (fun _ _ _ => (1 / 2 : ℝ))
      (get_atmos_light 1 1 (fun _ _ _ => (1 / 2 : ℝ))
        (darkChannel3 1 1 (fun _ _ _ => (1 / 2 : ℝ)) 15 15) (1 / 1000))
      (19 / 20) 15 15 = fun _ _ => (1 / 20 : ℝ) := by
    funext y x
    rw [get_tilde_t, darkChannel3, minFilt_one, minCh3]
    rw [hA 0, hA 1, hA 2]
    norm_num
  show guided_filter 1 1 (fun _ _ _ => (1 / 2 : ℝ))
    (get_tilde_t 1 1 (fun _ _ _ => (1 / 2 : ℝ))
      (get_atmos_light 1 1 (fun _ _ _ => (1 / 2 : ℝ))
        (darkChannel3 1 1 (fun _ _ _ => (1 / 2 : ℝ)) 15 15) (1 / 1000))
      (19 / 20) 15 15) (41, 41) (1 / 1000) 0 0 = 1 / 20
  rw [htt]
  have hbox : ∀ (v : ℕ → ℕ → ℝ) (y x : ℕ), boxAvg 1 1 v 41 41 y x = v 0 0 :=
    fun v y x => boxAvg_one v (by norm_num) (by norm_num) y x
  simp only [guided_filter, hbox, rgb2gray]
  norm_num

/-- Witness for C10: on the 1×1 constant pipeline (guided path) the
refined transmission is positive and the depth-sign equivalence holds. -/
theorem dehaze_depth_spec_witness :
    0 < (dehaze_image 1 1 (fun _ _ _ => (1 / 2 : ℝ)) (some Method.guided) (15, 15)
        (1 / 1000) (1 / 10000) (1 / 10000000) 1 (41, 41) (1 / 1000) 4).t 0 0 ∧
    (0 ≤ (dehaze_image 1 1 (fun _ _ _ => (1 / 2 : ℝ)) (some Method.guided) (15, 15)
        (1 / 1000) (1 / 10000) (1 / 10000000) 1 (41, 41) (1 / 1000) 4).D 0 0
      ↔ (dehaze_image 1 1 (fun _ _ _ => (1 / 2 : ℝ)) (some Method.guided) (15, 15)
        (1 / 1000) (1 / 10000) (1 / 10000000) 1 (41, 41) (1 / 1000) 4).t 0 0 ≤ 1) := by
  have hpos : 0 < (dehaze_image 1 1 (fun _ _ _ => (1 / 2 : ℝ))
      (some Method.guided) (15, 15) (1 / 1000) (1 / 10000) (1 / 10000000) 1
      (41, 41) (1 / 1000) 4).t 0 0 := by
    rw [dehaze_guided_one_t]
    norm_num
  exact ⟨hpos,
    (dehaze_depth_spec 1 1 (fun _ _ _ => (1 / 2 : ℝ)) (some Method.guided)
      (15, 15) (1 / 1000) (1 / 10000) (1 / 10000000) 1 (41, 41) (1 / 1000) 4).2
      0 0 hpos⟩

theorem cexImg_dc (y x : ℕ) (hy : y < 2) (hx : x < 2) :
    darkChannel3 2 2 cexImg 1 1 y x = cexImg y x 0 := by
  rw [darkChannel3, minFilt_pt, clampIdx_coe hy, clampIdx_coe hx]
  simp [minCh3, cexImg]

theorem cex_flat0 : flat2 2 (darkChannel3 2 2 cexImg 1 1) 0 = 9 / 10 := by
  show darkChannel3 2 2 cexImg 1 1 0 0 = 9 / 10
  rw [cexImg_dc 0 0 (by norm_num) (by norm_num)]
  simp [cexImg]

theorem cex_flat1 : flat2 2 (darkChannel3 2 2 cexImg 1 1) 1 = 8 / 10 := by
  show darkChannel3 2 2 cexImg 1 1 0 1 = 8 / 10
  rw [cexImg_dc 0 1 (by norm_num) (by norm_num)]
  simp [cexImg]

theorem cex_flat2 : flat2 2 (darkChannel3 2 2 cexImg 1 1) 2 = 7 / 10 := by
  show darkChannel3 2 2 cexImg 1 1 1 0 = 7 / 10
  rw [cexImg_dc 1 0 (by norm_num) (by norm_num)]
  simp [cexImg]

theorem cex_flat3 : flat2 2 (darkChannel3 2 2 cexImg 1 1) 3 = 6 / 10 := by
  show darkChannel3 2 2 cexImg 1 1 1 1 = 6 / 10
  rw [cexImg_dc 1 1 (by norm_num) (by norm_num)]
  simp [cexImg]

theorem cex_argsort : argsort (2 * 2) (flat2 2 (darkChannel3 2 2 cexImg 1 1))
    = [3, 2, 1, 0] := by
  have hn23 : ¬ valLE (flat2 2 (darkChannel3 2 2 cexImg 1 1)) 2 3 := by
    show ¬ (flat2 2 (darkChannel3 2 2 cexImg 1 1) 2
      ≤ flat2 2 (darkChannel3 2 2 cexImg 1 1) 3)
    rw [cex_flat2, cex_flat3]
    norm_num
  have hn13 : ¬ valLE (flat2 2 (darkChannel3 2 2 cexImg 1 1)) 1 3 := by
    show ¬ (flat2 2 (darkChannel3 2 2 cexImg 1 1) 1
      ≤ flat2 2 (darkChannel3 2 2 cexImg 1 1) 3)
    rw [cex_flat1, cex_flat3]
    norm_num
  have hn12 : ¬ valLE (flat2 2 (darkChannel3 2 2 cexImg 1 1)) 1 2 := by
    show ¬ (flat2 2 (darkChannel3 2 2 cexImg 1 1) 1
      ≤ flat2 2 (darkChannel3 2 2 cexImg 1 1) 2)
    rw [cex_flat1, cex_flat2]
    norm_num
  have hn03 : ¬ valLE (flat2 2 (darkChannel3 2 2 cexImg 1 1)) 0 3 := by
    show ¬ (flat2 2 (darkChannel3 2 2 cexImg 1 1) 0
      ≤ flat2 2 (darkChannel3 2 2 cexImg 1 1) 3)
    rw [cex_flat0, cex_flat3]
    norm_num
  have hn02 : ¬ valLE (flat2 2 (darkChannel3 2 2 cexImg 1 1)) 0 2 := by
    show ¬ (flat2 2 (darkChannel3 2 2 cexImg 1 1) 0
      ≤ flat2 2 (darkChannel3 2 2 cexImg 1 1) 2)
    rw [cex_flat0, cex_flat2]
    norm_num
  have hn01 : ¬ valLE (flat2 2 (darkChannel3 2 2 cexImg 1 1)) 0 1 := by
    show ¬ (flat2 2 (darkChannel3 2 2 cexImg 1 1) 0
      ≤ flat2 2 (darkChannel3 2 2 cexImg 1 1) 1)
    rw [cex_flat0, cex_flat1]
    norm_num
  rw [argsort, show List.range (2 * 2) = [0, 1, 2, 3] from rfl]
  simp only [List.insertionSort, List.orderedInsert]
  rw [if_neg hn23]
  simp only [List.orderedInsert]
  rw [if_neg hn13, if_neg hn12]
  simp only [List.orderedInsert]
  rw [if_neg hn03, if_neg hn02, if_neg hn01]

theorem cex_numpix : numpix (K := ℝ) 2 2 (1 / 1000) = 1 := by
  have h0 : ⌊((2 : ℕ) : ℝ) * ((2 : ℕ) : ℝ) * (1 / 1000)⌋ = 0 := by norm_num
  rw [numpix, h0]
  decide

theorem cex_top : topIdx (2 * 2) (flat2 2 (darkChannel3 2 2 cexImg 1 1))
    (numpix (K := ℝ) 2 2 (1 / 1000)) = [0] := by
  rw [cex_numpix, topIdx, cex_argsort]
  rfl

theorem cex_A (c : Fin 3) :
    get_atmos_light 2 2 cexImg (darkChannel3 2 2 cexImg 1 1) (1 / 1000) c
      = 9 / 10 := by
  rw [get_atmos_light, cex_top, cex_numpix]
  rw [show (2 * 2 : ℕ) = 4 from rfl, Finset.sum_range_succ, Finset.sum_range_succ,
    Finset.sum_range_succ, Finset.sum_range_one]
  norm_num [cexImg]

/-- Counterexample to C5 as stated: with configured patch size (1, 1) on
the concrete 2×2 image, the raw transmission produced by the pipeline
(which hardwires the default patch size (15, 15) inside `get_tilde_t`)
differs at pixel (0, 0) from the raw transmission computed with the
configured patch size actually passed through. -/
theorem dehaze_patch_size_cex :
    (dehaze_image 2 2 cexImg none (1, 1) (1 / 1000) (1 / 10000) (1 / 10000000) 1
        (41, 41) (1 / 1000) 4).tilde_t 0 0
      ≠ get_tilde_t 2 2 cexImg
          (get_atmos_light 2 2 cexImg (darkChannel3 2 2 cexImg 1 1) (1 / 1000))
          (19 / 20) 1 1 0 0 := by
  have hIA : ∀ y x, y < 2 → x < 2 → minCh3 (fun y x c => cexImg y x c
      / get_atmos_light 2 2 cexImg (darkChannel3 2 2 cexImg 1 1) (1 / 1000) c) y x
      = cexImg y x 0 / (9 / 10) := by
    intro y x hy hx
    rw [minCh3]
    rw [cex_A 0, cex_A 1, cex_A 2]
    simp [cexImg]
  have hdc15 : darkChannel3 2 2 (fun y x c => cexImg y x c
      / get_atmos_light 2 2 cexImg (darkChannel3 2 2 cexImg 1 1) (1 / 1000) c)
      15 15 0 0 = 2 / 3 := by
    rw [darkChannel3]
    refine le_antisymm ?_ ?_
    · have hmem : ((1 : ℤ), (1 : ℤ)) ∈ insert ((0 : ℤ), (0 : ℤ))
          (offs 15 ×ˢ offs 15) :=
        Finset.mem_insert_of_mem (by decide)
      have h1 := Finset.inf'_le (fun d : ℤ × ℤ => minCh3 (fun y x c => cexImg y x c
        / get_atmos_light 2 2 cexImg (darkChannel3 2 2 cexImg 1 1) (1 / 1000) c)
        (clampIdx 2 ((0 : ℕ) + d.1)) (clampIdx 2 ((0 : ℕ) + d.2))) hmem
      rw [minFilt]
      refine le_trans h1 ?_
      rw [show clampIdx 2 ((0 : ℕ) + (1 : ℤ)) = 1 from by unfold clampIdx; omega]
      rw [hIA 1 1 (by norm_num) (by norm_num)]
      rw [show cexImg 1 1 0 = 6 / 10 from by simp [cexImg]]
      norm_num
    · rw [minFilt]
      refine Finset.le_inf' _ _ fun d _ => ?_
      have hy := clampIdx_le (n := 2) (by norm_num) ((0 : ℕ) + d.1)
      have hx := clampIdx_le (n := 2) (by norm_num) ((0 : ℕ) + d.2)
      rw [hIA _ _ (by omega) (by omega)]
      set ycl := clampIdx 2 ((0 : ℕ) + d.1) with hycl
      set xcl := clampIdx 2 ((0 : ℕ) + d.2) with hxcl
      interval_cases ycl <;> interval_cases xcl <;>
        simp [cexImg] <;> norm_num
  have hL : (dehaze_image 2 2 cexImg none (1, 1) (1 / 1000) (1 / 10000)
      (1 / 10000000) 1 (41, 41) (1 / 1000) 4).tilde_t 0 0 = 11 / 30 := by
    show get_tilde_t 2 2 cexImg
      (get_atmos_light 2 2 cexImg (darkChannel3 2 2 cexImg 1 1) (1 / 1000))
      (19 / 20) 15 15 0 0 = 11 / 30
    rw [get_tilde_t, hdc15]
    norm_num
  have hR : get_tilde_t 2 2 cexImg
      (get_atmos_light 2 2 cexImg (darkChannel3 2 2 cexImg 1 1) (1 / 1000))
      (19 / 20) 1 1 0 0 = 1 / 20 := by
    rw [get_tilde_t, darkChannel3, minFilt_pt]
    rw [show clampIdx 2 ((0 : ℕ) : ℤ) = 0 from by unfold clampIdx; omega]
    rw [hIA 0 0 (by norm_num) (by norm_num)]
    rw [show cexImg 0 0 0 = 9 / 10 from by simp [cexImg]]
    norm_num
  rw [hL, hR]
  norm_num

/-- Claim C8 (code bug): a 3-D input with one trailing channel passes the
rank test but is handed, still at rank 3, to `minimum_filter` together
with the length-2 patch-size sequence, so the call raises a
`RuntimeError` instead of succeeding with an `(H, W)` result as the claim
states; genuinely unsupported ranks raise the configuration error, and
3-channel inputs succeed with a rank-2 output. -/
theorem dark_channel_one_channel_raises :
    (∀ (H W : ℕ) (v : ℕ → ℕ → ℕ → K),
      get_dark_channel (NpArr.arr3 H W 1 v) (15, 15)
        = .error .filterSeqRankMismatch) ∧
    (∀ (H W : ℕ) (v : ℕ → ℕ → ℕ → K),
      get_dark_channel (NpArr.arr3 H W 2 v) (15, 15) = .error .notImplemented) ∧
    (∀ (H W : ℕ) (v : ℕ → ℕ → ℕ → K),
      get_dark_channel (NpArr.arr3 H W 3 v) (15, 15)
        = .ok (NpArr.arr2 H W (minFilt H W
            (fun y x => min (v y x 0) (min (v y x 1) (v y x 2))) 15 15))) :=
  ⟨fun _ _ _ => rfl, fun _ _ _ => rfl, fun _ _ _ => rfl⟩

end Dehaze
